import Mathlib

/-!
# Bounded multi-producer / multi-consumer ring queue

A shallow embedding of `mpmc_bounded_queue.h` (`zoltan::mcmp_bounded_queue<SIZE, T>`)
and of the smoke test in `main.cpp`.

Two embeddings of the same code are given.

* The word-level model (`enqueue_iter_w`, `dequeue_iter_w`, `enqueue_w`, `dequeue_w`,
  `run_w`) keeps the `size_t` cursors and sequence numbers in `w`-bit words: every stored
  value is reduced modulo `2 ^ w`, and `long diff = cell_pos - pos` is the difference
  modulo `2 ^ w` read as a two's-complement number (`diff_w`).  `w = 64` is the LP64
  machine.  What the cursors and sequence numbers are after an arbitrary history is
  stated on this model.
* The unbounded model (`enqueue_iter`, `dequeue_iter`, `enqueue`, `dequeue`, `run`) lets
  the counters run on as natural numbers and takes `diff` as the exact signed difference.
  It serves for the flags and outputs of sequential histories, which `run_w_init` carries
  over to the word-level model: a word-level run from the fresh queue is the unbounded
  run with every counter reduced (`wrap`).

Common to both:

* The slot array `new cell[SIZE]` is a list of `SIZE` cells; an access outside of the
  list is reported as `Iter.fault`.
* One pass through the body of the `while (true)` loop is a function of the shared state
  and the thread's local cursor; it either returns from the call, or goes round again
  with a new local cursor.  The loop is the iteration of that function, bounded by fuel.
* `compare_exchange_weak` succeeds exactly when the shared cursor equals the expected
  value (no spurious failure); on failure the caller continues with the shared cursor.
-/

namespace zoltan

/-- The slot type `struct cell { T _data; std::atomic_size_t _index; }`. -/
structure cell (T : Type) where
  _data : T
  _index : Nat
deriving Repr, DecidableEq

/-- The data members of `mcmp_bounded_queue`: the slot array and the two cursors. -/
structure mcmp_bounded_queue (T : Type) where
  m_queue : List (cell T)
  m_read : Nat
  m_write : Nat
deriving Repr, DecidableEq

/-- Outcome of one pass through the body of a `while (true)` loop. -/
inductive Iter (T : Type) where
  /-- The call returns `result`; `q` is the shared state and `data` the content of the
  caller's `T&` argument at that moment. -/
  | ret (q : mcmp_bounded_queue T) (data : T) (result : Bool)
  /-- The loop goes round again; `pos` is the local cursor of the next pass. -/
  | again (pos : Nat)
  /-- The slot array was indexed outside of its `SIZE` cells. -/
  | fault
deriving Repr, DecidableEq

namespace mcmp_bounded_queue

variable {T : Type}

/-- The constant `SIZE_MASK = SIZE - 1`. -/
def SIZE_MASK (SIZE : Nat) : Nat := SIZE - 1

/-- The condition of the constructor's
`static_assert(SIZE >= 2 and ((SIZE & (SIZE - 1)) == 0))`. -/
def static_assert (SIZE : Nat) : Bool :=
  decide (SIZE ≥ 2) && ((SIZE &&& (SIZE - 1)) == 0)

/-- The body of the constructor: `SIZE` default-constructed cells, cell `idx` seeded with
sequence number `idx`, both cursors at `0`. -/
def init [Inhabited T] (SIZE : Nat) : mcmp_bounded_queue T :=
  { m_queue := (List.range SIZE).map (fun idx => { _data := default, _index := idx })
    m_read := 0
    m_write := 0 }

/-- Construction: there is a queue only when the `static_assert` holds. -/
def construct [Inhabited T] (SIZE : Nat) : Option (mcmp_bounded_queue T) :=
  if static_assert SIZE then some (init SIZE) else none

/-- One pass through the loop body of `enqueue` (lines 82-100) with local cursor
`write_pos`, followed by the publication of lines 102-104 when the loop is left by
`break`; counters unbounded (`enqueue_iter_w` is the same pass on machine words). -/
def enqueue_iter (SIZE : Nat) (q : mcmp_bounded_queue T) (write_pos : Nat) (data : T) :
    Iter T :=
  match q.m_queue[write_pos &&& SIZE_MASK SIZE]? with
  | none => Iter.fault
  | some c =>
    let cell_pos := c._index
    let diff : Int := (cell_pos : Int) - (write_pos : Int)
    if diff = 0 then
      if q.m_write = write_pos then
        Iter.ret
          { q with
            m_write := write_pos + 1
            m_queue := q.m_queue.set (write_pos &&& SIZE_MASK SIZE)
              { _data := data, _index := write_pos + 1 } }
          data true
      else
        Iter.again q.m_write
    else if diff < 0 then
      Iter.ret q data false
    else
      Iter.again write_pos

/-- The `while (true)` loop of `enqueue`, at most `fuel` passes, started with local cursor
`write_pos`.  `none`: no return within `fuel` passes, or a fault. -/
def enqueue_loop (SIZE : Nat) (q : mcmp_bounded_queue T) (data : T) :
    Nat → Nat → Option (mcmp_bounded_queue T × T × Bool)
  | 0, _ => none
  | fuel + 1, write_pos =>
    match enqueue_iter SIZE q write_pos data with
    | Iter.ret q' d b => some (q', d, b)
    | Iter.again pos => enqueue_loop SIZE q data fuel pos
    | Iter.fault => none

/-- The call `enqueue(data)` run alone: the local cursor is loaded from `m_write`
(line 78), then the loop runs.  The result is the new state, the caller's `data`
afterwards and the returned flag. -/
def enqueue (SIZE fuel : Nat) (q : mcmp_bounded_queue T) (data : T) :
    Option (mcmp_bounded_queue T × T × Bool) :=
  enqueue_loop SIZE q data fuel q.m_write

/-- One pass through the loop body of `dequeue` (lines 114-131) with local cursor
`read_pos`, followed by the copy-out and re-arming of lines 133-135 when the loop is left
by `break`; counters unbounded (`dequeue_iter_w` is the same pass on machine words). -/
def dequeue_iter (SIZE : Nat) (q : mcmp_bounded_queue T) (read_pos : Nat) (data : T) :
    Iter T :=
  match q.m_queue[read_pos &&& SIZE_MASK SIZE]? with
  | none => Iter.fault
  | some c =>
    let cell_pos := c._index
    let diff : Int := (cell_pos : Int) - (read_pos : Int)
    if diff = 1 then
      if q.m_read = read_pos then
        Iter.ret
          { q with
            m_read := read_pos + 1
            m_queue := q.m_queue.set (read_pos &&& SIZE_MASK SIZE)
              { _data := c._data, _index := read_pos + SIZE } }
          c._data true
      else
        Iter.again q.m_read
    else if diff = 0 then
      Iter.ret q data false
    else
      Iter.again q.m_read

/-- The `while (true)` loop of `dequeue`, at most `fuel` passes, started with local cursor
`read_pos`. -/
def dequeue_loop (SIZE : Nat) (q : mcmp_bounded_queue T) (data : T) :
    Nat → Nat → Option (mcmp_bounded_queue T × T × Bool)
  | 0, _ => none
  | fuel + 1, read_pos =>
    match dequeue_iter SIZE q read_pos data with
    | Iter.ret q' d b => some (q', d, b)
    | Iter.again pos => dequeue_loop SIZE q data fuel pos
    | Iter.fault => none

/-- The call `dequeue(data)` run alone: the local cursor is loaded from `m_read`
(line 110), then the loop runs. -/
def dequeue (SIZE fuel : Nat) (q : mcmp_bounded_queue T) (data : T) :
    Option (mcmp_bounded_queue T × T × Bool) :=
  dequeue_loop SIZE q data fuel q.m_read

end mcmp_bounded_queue

/-- A call made by a single-threaded client; `data` is the content of the variable passed
by reference. -/
inductive Call (T : Type) where
  | enqueue (data : T)
  | dequeue (data : T)
deriving Repr, DecidableEq

/-- What the client sees of a call: the returned flag and the content of its variable
after the call. -/
abbrev Seen (T : Type) := Bool × T

namespace mcmp_bounded_queue

variable {T : Type}

/-- One call of a sequential client. -/
def call (SIZE fuel : Nat) (q : mcmp_bounded_queue T) :
    Call T → Option (mcmp_bounded_queue T × Seen T)
  | Call.enqueue data => (enqueue SIZE fuel q data).map (fun r => (r.1, r.2.2, r.2.1))
  | Call.dequeue data => (dequeue SIZE fuel q data).map (fun r => (r.1, r.2.2, r.2.1))

/-- A sequence of calls executed one after another, each with `fuel` loop passes. -/
def run (SIZE fuel : Nat) :
    mcmp_bounded_queue T → List (Call T) → Option (mcmp_bounded_queue T × List (Seen T))
  | q, [] => some (q, [])
  | q, c :: cs =>
    match call SIZE fuel q c with
    | none => none
    | some (q', s) =>
      match run SIZE fuel q' cs with
      | none => none
      | some (q'', ss) => some (q'', s :: ss)

/-- States reached from a freshly constructed queue by sequential calls. -/
def Reachable [Inhabited T] (SIZE : Nat) (q : mcmp_bounded_queue T) : Prop :=
  ∃ (fuel : Nat) (cs : List (Call T)) (ss : List (Seen T)),
    run SIZE fuel (init SIZE) cs = some (q, ss)

/-- Number of `enqueue` calls of a history that returned `true`. -/
def accepted : List (Call T) → List (Seen T) → Nat
  | Call.enqueue _ :: cs, (true, _) :: ss => accepted cs ss + 1
  | _ :: cs, _ :: ss => accepted cs ss
  | _, _ => 0

/-- Number of `dequeue` calls of a history that returned `true`. -/
def delivered : List (Call T) → List (Seen T) → Nat
  | Call.dequeue _ :: cs, (true, _) :: ss => delivered cs ss + 1
  | _ :: cs, _ :: ss => delivered cs ss
  | _, _ => 0

end mcmp_bounded_queue

namespace mcmp_bounded_queue

variable {T : Type}

/-- The abstraction relation between a queue state and the list of values it holds,
oldest first: the cursors are `l.length` apart, the cells of the logical positions
`m_read, ..., m_write - 1` hold the values of `l` with sequence number one past their
position, and the cells of the positions `m_write, ..., m_read + SIZE - 1` carry their
position as sequence number. -/
def Rep (SIZE : Nat) (q : mcmp_bounded_queue T) (l : List T) : Prop :=
  q.m_queue.length = SIZE ∧
  q.m_write = q.m_read + l.length ∧
  l.length ≤ SIZE ∧
  (∀ i v, l[i]? = some v →
    q.m_queue[(q.m_read + i) % SIZE]? = some { _data := v, _index := q.m_read + i + 1 }) ∧
  (∀ i, l.length ≤ i → i < SIZE →
    ∃ d, q.m_queue[(q.m_read + i) % SIZE]? = some { _data := d, _index := q.m_read + i })

/-- The state a successful `enqueue(data)` leaves behind (lines 89, 102, 103): the cell of
the write cursor holds `data` with sequence number `m_write + 1`, the write cursor is
advanced. -/
def pushed (SIZE : Nat) (q : mcmp_bounded_queue T) (data : T) : mcmp_bounded_queue T :=
  { q with
    m_write := q.m_write + 1
    m_queue := q.m_queue.set (q.m_write &&& SIZE_MASK SIZE)
      { _data := data, _index := q.m_write + 1 } }

/-- The state a successful `dequeue` that handed out `h` leaves behind (lines 120, 134):
the cell of the read cursor is re-armed with sequence number `m_read + SIZE`, the read
cursor is advanced. -/
def popped (SIZE : Nat) (q : mcmp_bounded_queue T) (h : T) : mcmp_bounded_queue T :=
  { q with
    m_read := q.m_read + 1
    m_queue := q.m_queue.set (q.m_read &&& SIZE_MASK SIZE)
      { _data := h, _index := q.m_read + SIZE } }

end mcmp_bounded_queue

/-! ## Reference bounded FIFO (written after the claim's words) -/

namespace Fifo

variable {T : Type}

/-- Reference `enqueue`: append and answer `true` iff fewer than `N` elements are held. -/
def enqueue (N : Nat) (l : List T) (v : T) : List T × Seen T :=
  if l.length < N then (l ++ [v], (true, v)) else (l, (false, v))

/-- Reference `dequeue`: remove and hand out the head iff the list is non-empty. -/
def dequeue (l : List T) (out : T) : List T × Seen T :=
  match l with
  | [] => ([], (false, out))
  | h :: t => (t, (true, h))

/-- One call on the reference FIFO. -/
def call (N : Nat) (l : List T) : Call T → List T × Seen T
  | Call.enqueue v => enqueue N l v
  | Call.dequeue out => dequeue l out

/-- A sequence of calls on the reference FIFO. -/
def run (N : Nat) : List T → List (Call T) → List T × List (Seen T)
  | l, [] => (l, [])
  | l, c :: cs =>
    let r := call N l c
    let rs := run N r.1 cs
    (rs.1, r.2 :: rs.2)

end Fifo

/-! ## Word-level model

The same code with cursors and sequence numbers held in `w`-bit unsigned words: every
stored value is reduced modulo `2 ^ w`, and `long diff` is the difference modulo `2 ^ w`
read as a two's-complement number. -/

namespace mcmp_bounded_queue

variable {T : Type}

/-- The value of `long diff = cell_pos - pos` on `w`-bit words: the unsigned difference
modulo `2 ^ w`, read as a two's-complement signed number. -/
def diff_w (w cell_pos pos : Nat) : Int :=
  let d : Int := ((cell_pos : Int) - (pos : Int)) % (2 : Int) ^ w
  if d < (2 : Int) ^ (w - 1) then d else d - (2 : Int) ^ w

/-- One pass through the loop body of `enqueue` (lines 82-100, then 102-104) on `w`-bit
words: `write_pos + 1` is computed modulo `2 ^ w` and `diff` is `diff_w`. -/
def enqueue_iter_w (w SIZE : Nat) (q : mcmp_bounded_queue T) (write_pos : Nat) (data : T) :
    Iter T :=
  match q.m_queue[write_pos &&& SIZE_MASK SIZE]? with
  | none => Iter.fault
  | some c =>
    let cell_pos := c._index
    let diff : Int := diff_w w cell_pos write_pos
    if diff = 0 then
      if q.m_write = write_pos then
        Iter.ret
          { q with
            m_write := (write_pos + 1) % 2 ^ w
            m_queue := q.m_queue.set (write_pos &&& SIZE_MASK SIZE)
              { _data := data, _index := (write_pos + 1) % 2 ^ w } }
          data true
      else
        Iter.again q.m_write
    else if diff < 0 then
      Iter.ret q data false
    else
      Iter.again write_pos

/-- The `while (true)` loop of `enqueue` on `w`-bit words, at most `fuel` passes. -/
def enqueue_loop_w (w SIZE : Nat) (q : mcmp_bounded_queue T) (data : T) :
    Nat → Nat → Option (mcmp_bounded_queue T × T × Bool)
  | 0, _ => none
  | fuel + 1, write_pos =>
    match enqueue_iter_w w SIZE q write_pos data with
    | Iter.ret q' d b => some (q', d, b)
    | Iter.again pos => enqueue_loop_w w SIZE q data fuel pos
    | Iter.fault => none

/-- The call `enqueue(data)` on `w`-bit words, run alone. -/
def enqueue_w (w SIZE fuel : Nat) (q : mcmp_bounded_queue T) (data : T) :
    Option (mcmp_bounded_queue T × T × Bool) :=
  enqueue_loop_w w SIZE q data fuel q.m_write

/-- One pass through the loop body of `dequeue` (lines 114-131, then 133-135) on `w`-bit
words: `read_pos + 1` and `read_pos + SIZE` are computed modulo `2 ^ w` and `diff` is
`diff_w`. -/
def dequeue_iter_w (w SIZE : Nat) (q : mcmp_bounded_queue T) (read_pos : Nat) (data : T) :
    Iter T :=
  match q.m_queue[read_pos &&& SIZE_MASK SIZE]? with
  | none => Iter.fault
  | some c =>
    let cell_pos := c._index
    let diff : Int := diff_w w cell_pos read_pos
    if diff = 1 then
      if q.m_read = read_pos then
        Iter.ret
          { q with
            m_read := (read_pos + 1) % 2 ^ w
            m_queue := q.m_queue.set (read_pos &&& SIZE_MASK SIZE)
              { _data := c._data, _index := (read_pos + SIZE) % 2 ^ w } }
          c._data true
      else
        Iter.again q.m_read
    else if diff = 0 then
      Iter.ret q data false
    else
      Iter.again q.m_read

/-- The `while (true)` loop of `dequeue` on `w`-bit words, at most `fuel` passes. -/
def dequeue_loop_w (w SIZE : Nat) (q : mcmp_bounded_queue T) (data : T) :
    Nat → Nat → Option (mcmp_bounded_queue T × T × Bool)
  | 0, _ => none
  | fuel + 1, read_pos =>
    match dequeue_iter_w w SIZE q read_pos data with
    | Iter.ret q' d b => some (q', d, b)
    | Iter.again pos => dequeue_loop_w w SIZE q data fuel pos
    | Iter.fault => none

/-- The call `dequeue(data)` on `w`-bit words, run alone. -/
def dequeue_w (w SIZE fuel : Nat) (q : mcmp_bounded_queue T) (data : T) :
    Option (mcmp_bounded_queue T × T × Bool) :=
  dequeue_loop_w w SIZE q data fuel q.m_read

/-- One call of a sequential client on `w`-bit words. -/
def call_w (w SIZE fuel : Nat) (q : mcmp_bounded_queue T) :
    Call T → Option (mcmp_bounded_queue T × Seen T)
  | Call.enqueue data => (enqueue_w w SIZE fuel q data).map (fun r => (r.1, r.2.2, r.2.1))
  | Call.dequeue data => (dequeue_w w SIZE fuel q data).map (fun r => (r.1, r.2.2, r.2.1))

/-- A sequence of calls executed one after another on `w`-bit words. -/
def run_w (w SIZE fuel : Nat) :
    mcmp_bounded_queue T → List (Call T) → Option (mcmp_bounded_queue T × List (Seen T))
  | q, [] => some (q, [])
  | q, c :: cs =>
    match call_w w SIZE fuel q c with
    | none => none
    | some (q', s) =>
      match run_w w SIZE fuel q' cs with
      | none => none
      | some (q'', ss) => some (q'', s :: ss)

/-- A queue of `w`-bit words that is empty after `k` full rounds: both cursors at
`k * SIZE mod 2 ^ w`, cell `i` at sequence number `(i + k * SIZE) mod 2 ^ w`. -/
def start_w [Inhabited T] (w SIZE k : Nat) : mcmp_bounded_queue T :=
  { m_queue := (List.range SIZE).map
      (fun idx => { _data := default, _index := (idx + k * SIZE) % 2 ^ w })
    m_read := k * SIZE % 2 ^ w
    m_write := k * SIZE % 2 ^ w }

/-- The empty queue after `k` full rounds with unbounded counters. -/
def start [Inhabited T] (SIZE k : Nat) : mcmp_bounded_queue T :=
  { m_queue := (List.range SIZE).map
      (fun idx => { _data := default, _index := idx + k * SIZE })
    m_read := k * SIZE
    m_write := k * SIZE }

/-- Reduction of every counter of a state to a `w`-bit word. -/
def wrap (w : Nat) (q : mcmp_bounded_queue T) : mcmp_bounded_queue T :=
  { m_queue := q.m_queue.map (fun c => { _data := c._data, _index := c._index % 2 ^ w })
    m_read := q.m_read % 2 ^ w
    m_write := q.m_write % 2 ^ w }

/-- States reached from a freshly constructed queue by sequential calls on `w`-bit
words. -/
def Reachable_w [Inhabited T] (w SIZE : Nat) (q : mcmp_bounded_queue T) : Prop :=
  ∃ (fuel : Nat) (cs : List (Call T)) (ss : List (Seen T)),
    run_w w SIZE fuel (init SIZE) cs = some (q, ss)

/-- The history of `n` rounds, each an `enqueue(v)` followed by a `dequeue` into a
variable holding `o`. -/
def rounds (n : Nat) (v o : T) : List (Call T) :=
  (List.replicate n [Call.enqueue v, Call.dequeue o]).flatten

/-- The state of a queue of capacity 2 on 64-bit words after `2 ^ 64 - 1` rounds of
`enqueue(0)`, `dequeue`: both cursors at `2 ^ 64 - 1`, cell 0 free for position `2 ^ 64`
(sequence number wrapped to `0`), cell 1 free for position `2 ^ 64 - 1`. -/
def at_wrap : mcmp_bounded_queue Nat :=
  { m_queue := [{ _data := 0, _index := 0 }, { _data := 0, _index := 2 ^ 64 - 1 }]
    m_read := 2 ^ 64 - 1
    m_write := 2 ^ 64 - 1 }

/-! ## States named in the header comment -/

/-- The picture `Empty scenario` of the header comment (lines 31-34): `SIZE = 8`,
`R : 13`, `W : 13`, cells `|17|18|19|20|13|14|15|16|`; payloads are default values. -/
def header_empty_scenario [Inhabited T] : mcmp_bounded_queue T :=
  { m_queue := [17, 18, 19, 20, 13, 14, 15, 16].map
      (fun idx => { _data := default, _index := idx })
    m_read := 13
    m_write := 13 }

/-- The state with read cursor 13 and write cursor 13 of a queue of capacity 8 whose
payloads are default values: cell `p & 7` carries `p` for `p = 13, ..., 20`. -/
def empty_at_13 [Inhabited T] : mcmp_bounded_queue T :=
  { m_queue := [16, 17, 18, 19, 20, 13, 14, 15].map
      (fun idx => { _data := default, _index := idx })
    m_read := 13
    m_write := 13 }

end mcmp_bounded_queue

namespace mcmp_bounded_queue

variable {T : Type}

/-! ## Capacity check and masking -/


theorem pow_two_of_land_pred (n : Nat) : 0 < n → n &&& (n - 1) = 0 → ∃ k, n = 2 ^ k := by
  induction n using Nat.strong_induction_on with
  | _ n ih =>
    intro hn h
    have hdiv : n / 2 &&& (n - 1) / 2 = 0 := by rw [← Nat.and_div_two, h]
    rcases Nat.mod_two_eq_zero_or_one n with h0 | h1
    · have hm : 0 < n / 2 := by omega
      have hpred : (n - 1) / 2 = n / 2 - 1 := by omega
      rw [hpred] at hdiv
      obtain ⟨k, hk⟩ := ih (n / 2) (by omega) hm hdiv
      exact ⟨k + 1, by rw [pow_succ]; omega⟩
    · have hpred : (n - 1) / 2 = n / 2 := by omega
      rw [hpred, Nat.and_self] at hdiv
      exact ⟨0, by omega⟩

theorem static_assert_iff (SIZE : Nat) :
    static_assert SIZE = true ↔ 2 ≤ SIZE ∧ ∃ k, 1 ≤ k ∧ SIZE = 2 ^ k := by
  unfold static_assert
  simp only [ge_iff_le, Bool.and_eq_true, decide_eq_true_eq, beq_iff_eq]
  constructor
  · rintro ⟨h2, hz⟩
    obtain ⟨k, hk⟩ := pow_two_of_land_pred SIZE (by omega) hz
    refine ⟨h2, k, ?_, hk⟩
    rcases k with _ | k
    · simp at hk; omega
    · omega
  · rintro ⟨h2, k, _, rfl⟩
    refine ⟨h2, ?_⟩
    rw [Nat.and_pow_two_sub_one_eq_mod, Nat.mod_self]

theorem mask_eq_mod {SIZE : Nat} (hS : static_assert SIZE = true) (c : Nat) :
    c &&& SIZE_MASK SIZE = c % SIZE := by
  obtain ⟨_, k, _, rfl⟩ := (static_assert_iff SIZE).1 hS
  exact Nat.and_pow_two_sub_one_eq_mod c k

theorem two_le_of_static_assert {SIZE : Nat} (hS : static_assert SIZE = true) : 2 ≤ SIZE :=
  ((static_assert_iff SIZE).1 hS).1

/-- Two logical positions less than `N` apart never share a cell. -/
theorem window_inj {N r i j : Nat} (hi : i < N) (hj : j < N)
    (h : (r + i) % N = (r + j) % N) : i = j := by
  have h1 : i ≡ j [MOD N] := Nat.ModEq.add_left_cancel' r h
  have h2 : i % N = j % N := h1
  rwa [Nat.mod_eq_of_lt hi, Nat.mod_eq_of_lt hj] at h2

theorem window_ne {N r j : Nat} (h0 : 0 < j) (hj : j < N) : ¬ r % N = (r + j) % N := by
  intro h
  have h' : (r + 0) % N = (r + j) % N := by rw [Nat.add_zero]; exact h
  have := window_inj (by omega) hj h'
  omega

/-! ## The abstraction relation is kept by every call -/


theorem rep_init [Inhabited T] (SIZE : Nat) : Rep SIZE (init SIZE : mcmp_bounded_queue T) [] := by
  refine ⟨by simp [init], by simp [init], by simp, ?_, ?_⟩
  · intro i v h
    simp at h
  · intro i _ hi
    refine ⟨default, ?_⟩
    simp [init, Nat.mod_eq_of_lt hi, List.getElem?_range hi]

theorem enqueue_room {SIZE : Nat} (hS : static_assert SIZE = true)
    {q : mcmp_bounded_queue T} {l : List T} (hR : Rep SIZE q l) (hlt : l.length < SIZE)
    (fuel : Nat) (v : T) :
    enqueue SIZE (fuel + 1) q v = some (pushed SIZE q v, v, true) := by
  obtain ⟨hlen, hw, hle, hfull, hfree⟩ := hR
  obtain ⟨d, hd⟩ := hfree l.length le_rfl hlt
  rw [← hw] at hd
  simp [enqueue, enqueue_loop, enqueue_iter, mask_eq_mod hS, hd, pushed]

theorem rep_pushed {SIZE : Nat} (hS : static_assert SIZE = true)
    {q : mcmp_bounded_queue T} {l : List T} (hR : Rep SIZE q l) (hlt : l.length < SIZE)
    (v : T) : Rep SIZE (pushed SIZE q v) (l ++ [v]) := by
  obtain ⟨hlen, hw, hle, hfull, hfree⟩ := hR
  have hpos : 0 < SIZE := by omega
  refine ⟨by simp [pushed, hlen], by simp [pushed, hw]; omega, by simp; omega, ?_, ?_⟩
  · intro i x hx
    simp only [pushed, mask_eq_mod hS, List.getElem?_set, hlen, Nat.mod_lt _ hpos, if_true]
    have hi : i < l.length + 1 := by
      have := (List.getElem?_eq_some_iff.1 hx).1
      simpa using this
    by_cases hil : i < l.length
    · rw [List.getElem?_append_left hil] at hx
      have hne : ¬ q.m_write % SIZE = (q.m_read + i) % SIZE := by
        rw [hw]; intro h; have := window_inj hlt (by omega) h; omega
      rw [if_neg hne]
      exact hfull i x hx
    · have hi' : i = l.length := by omega
      subst hi'
      simp at hx
      subst hx
      rw [hw]
      simp
  · intro i hi hiS
    simp only [List.length_append, List.length_singleton] at hi
    simp only [pushed, mask_eq_mod hS, List.getElem?_set, hlen, Nat.mod_lt _ hpos, if_true]
    have hne : ¬ q.m_write % SIZE = (q.m_read + i) % SIZE := by
      rw [hw]; intro h; have := window_inj hlt hiS h; omega
    rw [if_neg hne]
    exact hfree i (by omega) hiS

theorem enqueue_full {SIZE : Nat} (hS : static_assert SIZE = true)
    {q : mcmp_bounded_queue T} {l : List T} (hR : Rep SIZE q l) (hfl : l.length = SIZE)
    (fuel : Nat) (v : T) :
    enqueue SIZE (fuel + 1) q v = some (q, v, false) := by
  obtain ⟨hlen, hw, hle, hfull, hfree⟩ := hR
  have h2 := two_le_of_static_assert hS
  obtain ⟨x, hx⟩ : ∃ x, l[0]? = some x := by
    cases l with
    | nil => simp at hfl; omega
    | cons a t => exact ⟨a, by simp⟩
  have hc := hfull 0 x hx
  have hidx : q.m_write % SIZE = (q.m_read + 0) % SIZE := by
    rw [hw, hfl]; simp
  rw [← hidx] at hc
  have h1 : ¬ ((q.m_read : Int) + 1 - (q.m_write : Int) = 0) := by omega
  have h3 : (q.m_read : Int) + 1 < (q.m_write : Int) := by omega
  simp [enqueue, enqueue_loop, enqueue_iter, mask_eq_mod hS, hc, h1, h3]

theorem dequeue_some {SIZE : Nat} (hS : static_assert SIZE = true)
    {q : mcmp_bounded_queue T} {h : T} {t : List T} (hR : Rep SIZE q (h :: t))
    (fuel : Nat) (out : T) :
    dequeue SIZE (fuel + 1) q out = some (popped SIZE q h, h, true) := by
  obtain ⟨hlen, hw, hle, hfull, hfree⟩ := hR
  have hc := hfull 0 h (by simp)
  simp only [Nat.add_zero] at hc
  simp [dequeue, dequeue_loop, dequeue_iter, mask_eq_mod hS, hc, popped]

theorem rep_popped {SIZE : Nat} (hS : static_assert SIZE = true)
    {q : mcmp_bounded_queue T} {h : T} {t : List T} (hR : Rep SIZE q (h :: t)) :
    Rep SIZE (popped SIZE q h) t := by
  obtain ⟨hlen, hw, hle, hfull, hfree⟩ := hR
  simp only [List.length_cons] at hw hle
  have hpos : 0 < SIZE := by omega
  refine ⟨by simp [popped, hlen], by simp [popped, hw]; omega, by omega, ?_, ?_⟩
  · intro i x hx
    simp only [popped, mask_eq_mod hS, List.getElem?_set, hlen, Nat.mod_lt _ hpos, if_true]
    have hi : i < t.length := (List.getElem?_eq_some_iff.1 hx).1
    have hne : ¬ q.m_read % SIZE = (q.m_read + 1 + i) % SIZE := by
      rw [Nat.add_assoc]
      exact window_ne (by omega) (by omega)
    rw [if_neg hne]
    have := hfull (i + 1) x (by simpa using hx)
    rw [show q.m_read + 1 + i = q.m_read + (i + 1) by omega]
    exact this
  · intro i hi hiS
    simp only [popped, mask_eq_mod hS, List.getElem?_set, hlen, Nat.mod_lt _ hpos, if_true]
    by_cases hlast : i + 1 = SIZE
    · refine ⟨h, ?_⟩
      have he : (q.m_read + 1 + i) % SIZE = q.m_read % SIZE := by
        rw [show q.m_read + 1 + i = q.m_read + SIZE by omega]; simp
      rw [he, if_pos rfl]
      congr 2
      omega
    · have hne : ¬ q.m_read % SIZE = (q.m_read + 1 + i) % SIZE := by
        rw [Nat.add_assoc]
        exact window_ne (by omega) (by omega)
      rw [if_neg hne]
      have := hfree (i + 1) (by simp; omega) (by omega)
      rw [show q.m_read + 1 + i = q.m_read + (i + 1) by omega]
      exact this

theorem dequeue_none {SIZE : Nat} (hS : static_assert SIZE = true)
    {q : mcmp_bounded_queue T} (hR : Rep SIZE q [])
    (fuel : Nat) (out : T) :
    dequeue SIZE (fuel + 1) q out = some (q, out, false) := by
  obtain ⟨hlen, hw, hle, hfull, hfree⟩ := hR
  have h2 := two_le_of_static_assert hS
  obtain ⟨d, hd⟩ := hfree 0 (by simp) (by omega)
  simp only [Nat.add_zero] at hd
  simp [dequeue, dequeue_loop, dequeue_iter, mask_eq_mod hS, hd]

/-! ## Sequential histories against the reference FIFO -/


theorem static_assert_of_pow {SIZE : Nat} (h2 : 2 ≤ SIZE) (hp : ∃ k, SIZE = 2 ^ k) :
    static_assert SIZE = true := by
  obtain ⟨k, hk⟩ := hp
  refine (static_assert_iff SIZE).2 ⟨h2, k, ?_, hk⟩
  rcases k with _ | k
  · simp at hk; omega
  · omega

theorem call_refines {SIZE : Nat} (hS : static_assert SIZE = true) (fuel : Nat)
    {q : mcmp_bounded_queue T} {l : List T} (hR : Rep SIZE q l) (c : Call T) :
    ∃ q', call SIZE (fuel + 1) q c = some (q', (Fifo.call SIZE l c).2) ∧
      Rep SIZE q' (Fifo.call SIZE l c).1 := by
  cases c with
  | enqueue v =>
    by_cases hlt : l.length < SIZE
    · refine ⟨pushed SIZE q v, ?_, ?_⟩
      · simp [call, enqueue_room hS hR hlt, Fifo.call, Fifo.enqueue, hlt]
      · simpa [Fifo.call, Fifo.enqueue, hlt] using rep_pushed hS hR hlt v
    · have hfl : l.length = SIZE := by have := hR.2.2.1; omega
      refine ⟨q, ?_, ?_⟩
      · simp [call, enqueue_full hS hR hfl, Fifo.call, Fifo.enqueue, hfl]
      · simpa [Fifo.call, Fifo.enqueue, hfl] using hR
  | dequeue out =>
    cases l with
    | nil =>
      refine ⟨q, ?_, ?_⟩
      · simp [call, dequeue_none hS hR, Fifo.call, Fifo.dequeue]
      · simpa [Fifo.call, Fifo.dequeue] using hR
    | cons h t =>
      refine ⟨popped SIZE q h, ?_, ?_⟩
      · simp [call, dequeue_some hS hR, Fifo.call, Fifo.dequeue]
      · simpa [Fifo.call, Fifo.dequeue] using rep_popped hS hR

theorem run_refines {SIZE : Nat} (hS : static_assert SIZE = true) (fuel : Nat)
    (cs : List (Call T)) :
    ∀ (q : mcmp_bounded_queue T) (l : List T), Rep SIZE q l →
      ∃ q', run SIZE (fuel + 1) q cs = some (q', (Fifo.run SIZE l cs).2) ∧
        Rep SIZE q' (Fifo.run SIZE l cs).1 := by
  induction cs with
  | nil => intro q l hR; exact ⟨q, rfl, hR⟩
  | cons c cs ih =>
    intro q l hR
    obtain ⟨q1, h1, hR1⟩ := call_refines hS fuel hR c
    obtain ⟨q2, h2, hR2⟩ := ih q1 _ hR1
    exact ⟨q2, by simp [run, h1, h2, Fifo.run], by simpa [Fifo.run] using hR2⟩

theorem call_zero_fuel (SIZE : Nat) (q : mcmp_bounded_queue T) (c : Call T) :
    call SIZE 0 q c = none := by
  cases c <;> simp [call, enqueue, dequeue, enqueue_loop, dequeue_loop]

theorem reachable_rep [Inhabited T] {SIZE : Nat} (hS : static_assert SIZE = true)
    {q : mcmp_bounded_queue T} (hq : Reachable SIZE q) : ∃ l, Rep SIZE q l := by
  obtain ⟨fuel, cs, ss, h⟩ := hq
  rcases fuel with _ | fuel
  · cases cs with
    | nil =>
      simp [run] at h
      exact ⟨[], h.1 ▸ rep_init SIZE⟩
    | cons c cs => simp [run, call_zero_fuel] at h
  · obtain ⟨q', h', hR⟩ := run_refines hS fuel cs (init SIZE) [] (rep_init SIZE)
    rw [h] at h'
    simp at h'
    exact ⟨_, h'.1 ▸ hR⟩

theorem rep_empty_iff {SIZE : Nat} {q : mcmp_bounded_queue T} {l : List T}
    (hR : Rep SIZE q l) : q.m_read = q.m_write ↔ l = [] := by
  have hw := hR.2.1
  constructor
  · intro h
    apply List.eq_nil_of_length_eq_zero
    omega
  · intro h
    subst h
    simpa using hw.symm

end mcmp_bounded_queue

end zoltan

namespace zoltan

namespace Fifo

variable {T : Type}

theorem run_append (N : Nat) (a b : List (Call T)) :
    ∀ l : List T, run N l (a ++ b) =
      ((run N (run N l a).1 b).1, (run N l a).2 ++ (run N (run N l a).1 b).2) := by
  induction a with
  | nil => intro l; simp [run]
  | cons c a ih => intro l; simp [run, ih]

theorem run_enqueues (N : Nat) (vs : List T) :
    ∀ l : List T, l.length + vs.length ≤ N →
      run N l (vs.map Call.enqueue) = (l ++ vs, vs.map (fun v => (true, v))) := by
  induction vs with
  | nil => intro l _; simp [run]
  | cons v vs ih =>
    intro l h
    simp only [List.length_cons] at h
    have hlt : l.length < N := by omega
    simp [run, call, enqueue, hlt, ih (l ++ [v]) (by simp; omega)]

theorem run_dequeues (N : Nat) (outs : List T) :
    ∀ l : List T, outs.length = l.length →
      run N l (outs.map Call.dequeue) = ([], l.map (fun v => (true, v))) := by
  induction outs with
  | nil =>
    intro l h
    have : l = [] := List.eq_nil_of_length_eq_zero (by simpa using h.symm)
    subst this
    simp [run]
  | cons o outs ih =>
    intro l h
    cases l with
    | nil => simp at h
    | cons a t =>
      simp only [List.length_cons, Nat.add_right_cancel_iff] at h
      simp [run, call, dequeue, ih t h]

theorem run_boundary (N : Nat) (vs outs : List T) (x y : T) (hvs : vs.length = N)
    (houts : outs.length = N) :
    (run N [] (vs.map Call.enqueue ++ [Call.enqueue x] ++ outs.map Call.dequeue
        ++ [Call.dequeue y])).2 =
      vs.map (fun v => (true, v)) ++ [(false, x)] ++ vs.map (fun v => (true, v))
        ++ [(false, y)] := by
  have h1 := run_enqueues N vs [] (by simp [hvs])
  have h3 := run_dequeues N outs vs (by omega)
  simp [run_append, h1, h3, run, call, enqueue, dequeue, hvs]

end Fifo

namespace mcmp_bounded_queue

variable {T : Type}

/-! ## Contract of the sequential queue -/

/-- C1. Sequential FIFO refinement: for every capacity `SIZE >= 2` that is a power of
two and every finite sequence of `enqueue` / `dequeue` calls executed one after another
on a freshly constructed queue, every call returns, and the flag of every call and the
content of the caller's variable after it are those of the reference bounded FIFO run on
the same calls. -/
theorem sequential_fifo_refinement [Inhabited T] (SIZE : Nat) (h2 : 2 ≤ SIZE)
    (hp : ∃ k, SIZE = 2 ^ k) (fuel : Nat) (hf : 0 < fuel) (cs : List (Call T)) :
    (run SIZE fuel (init SIZE) cs).map Prod.snd = some (Fifo.run SIZE [] cs).2 := by
  obtain ⟨n, rfl⟩ : ∃ n, fuel = n + 1 := ⟨fuel - 1, by omega⟩
  obtain ⟨q', h, _⟩ :=
    run_refines (static_assert_of_pow h2 hp) n cs (init SIZE) [] (rep_init SIZE)
  rw [h]
  rfl

/-- Witness of C1 at capacity 2: a history that fills the queue, is refused once, drains
it, is refused once and enqueues again. -/
theorem sequential_fifo_refinement_witness :
    2 ≤ 2 ∧ (∃ k, 2 = 2 ^ k) ∧ 0 < 1 ∧
    (run 2 1 (init 2)
        [Call.dequeue "test1", Call.enqueue "a", Call.enqueue "b", Call.enqueue "c",
         Call.dequeue "x", Call.dequeue "x", Call.dequeue "x", Call.enqueue "d"]).map
        Prod.snd =
      some [(false, "test1"), (true, "a"), (true, "b"), (false, "c"),
            (true, "a"), (true, "b"), (false, "x"), (true, "d")] :=
  ⟨by decide, ⟨1, rfl⟩, by decide,
    sequential_fifo_refinement 2 (by decide) ⟨1, rfl⟩ 1 (by decide) _⟩

/-- C3. Full/empty boundary: for every valid capacity `SIZE`, on a freshly constructed
queue the first `SIZE` enqueue calls return true, the next enqueue call returns false,
the `SIZE` dequeue calls that follow return true and hand out the enqueued values in
insertion order, and the next dequeue call returns false with its output untouched. -/
theorem full_empty_boundary [Inhabited T] (SIZE : Nat) (h2 : 2 ≤ SIZE)
    (hp : ∃ k, SIZE = 2 ^ k) (fuel : Nat) (hf : 0 < fuel) (vs : List T)
    (hvs : vs.length = SIZE) (x : T) (outs : List T) (houts : outs.length = SIZE) (y : T) :
    (run SIZE fuel (init SIZE)
        (vs.map Call.enqueue ++ [Call.enqueue x] ++ outs.map Call.dequeue
          ++ [Call.dequeue y])).map Prod.snd =
      some (vs.map (fun v => (true, v)) ++ [(false, x)] ++ vs.map (fun v => (true, v))
        ++ [(false, y)]) := by
  obtain ⟨n, rfl⟩ : ∃ n, fuel = n + 1 := ⟨fuel - 1, by omega⟩
  obtain ⟨q', h, _⟩ :=
    run_refines (static_assert_of_pow h2 hp) n
      (vs.map Call.enqueue ++ [Call.enqueue x] ++ outs.map Call.dequeue
          ++ [Call.dequeue y]) (init SIZE) [] (rep_init SIZE)
  rw [h, Fifo.run_boundary SIZE vs outs x y hvs houts]
  rfl

/-- Witness of C3 at capacity 4. -/
theorem full_empty_boundary_witness :
    2 ≤ 4 ∧ (∃ k, 4 = 2 ^ k) ∧ 0 < 1 ∧ [10, 20, 30, 40].length = 4 ∧
    [0, 0, 0, 0].length = 4 ∧
    (run 4 1 (init 4 : mcmp_bounded_queue Nat)
        ([10, 20, 30, 40].map Call.enqueue ++ [Call.enqueue 50]
          ++ [0, 0, 0, 0].map Call.dequeue ++ [Call.dequeue 7])).map Prod.snd =
      some ([10, 20, 30, 40].map (fun v => (true, v)) ++ [(false, 50)]
        ++ [10, 20, 30, 40].map (fun v => (true, v)) ++ [(false, 7)]) :=
  ⟨by decide, ⟨2, rfl⟩, by decide, rfl, rfl,
    full_empty_boundary 4 (by decide) ⟨2, rfl⟩ 1 (by decide) [10, 20, 30, 40] rfl 50
      [0, 0, 0, 0] rfl 7⟩

/-- C4. Empty start: for every valid capacity and every initial content `x` of the output
variable, `dequeue` on a freshly constructed queue returns false, leaves the output
variable equal to `x` and leaves the queue as constructed. -/
theorem empty_start [Inhabited T] (SIZE : Nat) (h2 : 2 ≤ SIZE) (hp : ∃ k, SIZE = 2 ^ k)
    (fuel : Nat) (hf : 0 < fuel) (x : T) :
    dequeue SIZE fuel (init SIZE) x = some (init SIZE, x, false) := by
  obtain ⟨n, rfl⟩ : ∃ n, fuel = n + 1 := ⟨fuel - 1, by omega⟩
  exact dequeue_none (static_assert_of_pow h2 hp) (rep_init SIZE) n x

/-- Witness of C4: the first call of `main.cpp`, capacity 1024 and output variable
`"test1"`. -/
theorem empty_start_witness :
    2 ≤ 1024 ∧ (∃ k, 1024 = 2 ^ k) ∧ 0 < 1 ∧
    dequeue 1024 1 (init 1024) "test1" = some (init 1024, "test1", false) :=
  ⟨by decide, ⟨10, by norm_num⟩, by decide,
    empty_start 1024 (by decide) ⟨10, by norm_num⟩ 1 (by decide) "test1"⟩

end mcmp_bounded_queue

end zoltan

namespace zoltan

namespace mcmp_bounded_queue

variable {T : Type}

/-! ## Cursors, results and failed calls -/

theorem call_counts {SIZE : Nat} (hS : static_assert SIZE = true) (fuel : Nat)
    {q : mcmp_bounded_queue T} {l : List T} (hR : Rep SIZE q l) (c : Call T) :
    ∃ q' s l', call SIZE (fuel + 1) q c = some (q', s) ∧ Rep SIZE q' l' ∧
      q'.m_write = q.m_write + accepted [c] [s] ∧
      q'.m_read = q.m_read + delivered [c] [s] := by
  cases c with
  | enqueue v =>
    by_cases hlt : l.length < SIZE
    · exact ⟨pushed SIZE q v, (true, v), l ++ [v],
        by simp [call, enqueue_room hS hR hlt], rep_pushed hS hR hlt v,
        by simp [pushed, accepted], by simp [pushed, delivered]⟩
    · have hfl : l.length = SIZE := by have := hR.2.2.1; omega
      exact ⟨q, (false, v), l, by simp [call, enqueue_full hS hR hfl], hR,
        by simp [accepted], by simp [delivered]⟩
  | dequeue out =>
    cases l with
    | nil =>
      exact ⟨q, (false, out), [], by simp [call, dequeue_none hS hR], hR,
        by simp [accepted], by simp [delivered]⟩
    | cons h t =>
      exact ⟨popped SIZE q h, (true, h), t, by simp [call, dequeue_some hS hR],
        rep_popped hS hR, by simp [popped, accepted], by simp [popped, delivered]⟩

theorem accepted_cons (c : Call T) (s : Seen T) (cs : List (Call T)) (ss : List (Seen T)) :
    accepted (c :: cs) (s :: ss) = accepted [c] [s] + accepted cs ss := by
  rcases c with v | v <;> rcases s with ⟨_ | _, d⟩ <;> simp [accepted, Nat.add_comm]

theorem delivered_cons (c : Call T) (s : Seen T) (cs : List (Call T)) (ss : List (Seen T)) :
    delivered (c :: cs) (s :: ss) = delivered [c] [s] + delivered cs ss := by
  rcases c with v | v <;> rcases s with ⟨_ | _, d⟩ <;> simp [delivered, Nat.add_comm]

theorem run_counts {SIZE : Nat} (hS : static_assert SIZE = true) (fuel : Nat)
    (cs : List (Call T)) :
    ∀ (q : mcmp_bounded_queue T) (l : List T), Rep SIZE q l →
      ∃ q' ss l', run SIZE (fuel + 1) q cs = some (q', ss) ∧ Rep SIZE q' l' ∧
        q'.m_write = q.m_write + accepted cs ss ∧
        q'.m_read = q.m_read + delivered cs ss := by
  induction cs with
  | nil => intro q l hR; exact ⟨q, [], l, rfl, hR, by simp [accepted], by simp [delivered]⟩
  | cons c cs ih =>
    intro q l hR
    obtain ⟨q1, s, l1, h1, hR1, hw1, hr1⟩ := call_counts hS fuel hR c
    obtain ⟨q2, ss, l2, h2, hR2, hw2, hr2⟩ := ih q1 l1 hR1
    refine ⟨q2, s :: ss, l2, by simp [run, h1, h2], hR2, ?_, ?_⟩
    · rw [accepted_cons, hw2, hw1]; omega
    · rw [delivered_cons, hr2, hr1]; omega

end mcmp_bounded_queue

end zoltan

namespace zoltan

namespace mcmp_bounded_queue

variable {T : Type}

end mcmp_bounded_queue

end zoltan

namespace zoltan

namespace mcmp_bounded_queue

variable {T : Type}

/-! ## The retry loop of `enqueue` and the capacity check -/

theorem enqueue_loop_stuck (SIZE : Nat) (q : mcmp_bounded_queue T) (v : T) (pos : Nat)
    (h : enqueue_iter SIZE q pos v = Iter.again pos) :
    ∀ fuel, enqueue_loop SIZE q v fuel pos = none := by
  intro fuel
  induction fuel with
  | zero => rfl
  | succ n ih => simp only [enqueue_loop, h, ih]

/-- C9, evaluated at the failing input.  Capacity 2; a producer loads the write cursor
`0` of the fresh queue, a peer then completes `enqueue("a")` (write cursor 1, cell 0 at
sequence number 1).  Run alone from there with its stale local cursor `0`, the producer
sees `diff == 1`, takes neither branch, keeps its local cursor and so never returns,
whatever the number of loop passes.  From the same shared state the sibling loop of
`dequeue` leaves a pass with an overtaken cursor with the reloaded read cursor, and a
producer that starts from the current write cursor returns at once. -/
theorem enqueue_stale_cursor_never_returns :
    enqueue 2 1 (init 2) "a" = some (pushed 2 (init 2) "a", "a", true) ∧
    0 ≤ (pushed 2 (init 2) "a").m_write ∧
    enqueue_iter 2 (pushed 2 (init 2) "a") 0 "b" = Iter.again 0 ∧
    (∀ fuel, enqueue_loop 2 (pushed 2 (init 2) "a") "b" fuel 0 = none) ∧
    dequeue_iter 2 (popped 2 (pushed 2 (init 2) "a") "a") 0 "x" = Iter.again 1 ∧
    enqueue 2 1 (pushed 2 (init 2) "a") "b" =
      some (pushed 2 (pushed 2 (init 2) "a") "b", "b", true) :=
  ⟨rfl, Nat.zero_le _, rfl, enqueue_loop_stuck 2 _ "b" 0 rfl, rfl, rfl⟩

/-- C10. Construction validity: the constructor's check accepts `N` if and only if
`N >= 2` and `N = 2 ^ k` for some `k >= 1`; it rejects 0, 1, 3 and 1000 and accepts 2, 4
and 1024; and construction yields a queue exactly for the accepted capacities. -/
theorem construction_validity [Inhabited T] :
    (∀ N : Nat, static_assert N = true ↔ (2 ≤ N ∧ ∃ k, 1 ≤ k ∧ N = 2 ^ k)) ∧
    static_assert 0 = false ∧ static_assert 1 = false ∧ static_assert 3 = false ∧
    static_assert 1000 = false ∧
    static_assert 2 = true ∧ static_assert 4 = true ∧ static_assert 1024 = true ∧
    (∀ N : Nat, (∃ q : mcmp_bounded_queue T, construct N = some q) ↔
      (2 ≤ N ∧ ∃ k, 1 ≤ k ∧ N = 2 ^ k)) := by
  refine ⟨static_assert_iff, by decide, by decide, by decide, by decide, by decide,
    by decide, by decide, ?_⟩
  intro N
  rw [← static_assert_iff]
  unfold construct
  cases static_assert N <;> simp

end mcmp_bounded_queue

end zoltan

namespace zoltan

namespace mcmp_bounded_queue

variable {T : Type}

/-! ## Cell sequence numbers in reachable states -/

/-- Every physical index below `N` is the cell of exactly one logical position of the
window that starts at `r`. -/
theorem window_cover {N : Nat} (r i : Nat) (hi : i < N) :
    ∃ j, j < N ∧ (r + j) % N = i := by
  have hN : 0 < N := by omega
  have hb : r % N < N := Nat.mod_lt _ hN
  refine ⟨(i + N - r % N) % N, Nat.mod_lt _ hN, ?_⟩
  rw [Nat.add_mod_mod]
  have h1 : r + (i + N - r % N) = i + N * (r / N + 1) := by
    have := Nat.div_add_mod r N
    rw [Nat.mul_add, Nat.mul_one]
    omega
  rw [h1, Nat.add_mul_mod_self_left, Nat.mod_eq_of_lt hi]

theorem rep_published {SIZE : Nat} {q : mcmp_bounded_queue T} {l : List T}
    (hR : Rep SIZE q l) (p : Nat) (h1 : q.m_read ≤ p) (h2 : p < q.m_write) :
    ∃ c, q.m_queue[p % SIZE]? = some c ∧ c._index = p + 1 := by
  obtain ⟨hlen, hw, hle, hfull, hfree⟩ := hR
  have hi : p - q.m_read < l.length := by omega
  have := hfull (p - q.m_read) (l[p - q.m_read]) (List.getElem?_eq_getElem hi)
  rw [show q.m_read + (p - q.m_read) = p by omega] at this
  exact ⟨_, this, rfl⟩

theorem rep_free {SIZE : Nat} {q : mcmp_bounded_queue T} {l : List T}
    (hR : Rep SIZE q l) (p : Nat) (h1 : q.m_write ≤ p) (h2 : p < q.m_read + SIZE) :
    ∃ c, q.m_queue[p % SIZE]? = some c ∧ c._index = p := by
  obtain ⟨hlen, hw, hle, hfull, hfree⟩ := hR
  obtain ⟨d, hd⟩ := hfree (p - q.m_read) (by omega) (by omega)
  rw [show q.m_read + (p - q.m_read) = p by omega] at hd
  exact ⟨_, hd, rfl⟩

theorem rep_cell_mod {SIZE : Nat} {q : mcmp_bounded_queue T} {l : List T}
    (hR : Rep SIZE q l) (i : Nat) (hi : i < SIZE) :
    ∃ c, q.m_queue[i]? = some c ∧
      (c._index % SIZE = i % SIZE ∨ c._index % SIZE = (i + 1) % SIZE) := by
  obtain ⟨j, hj, hji⟩ := window_cover q.m_read i hi
  have hw := hR.2.1
  by_cases hp : q.m_read + j < q.m_write
  · obtain ⟨c, hc, hci⟩ := rep_published hR (q.m_read + j) (by omega) hp
    rw [hji] at hc
    refine ⟨c, hc, Or.inr ?_⟩
    rw [hci, Nat.add_mod, hji, Nat.add_mod i 1]
    simp
  · obtain ⟨c, hc, hci⟩ := rep_free hR (q.m_read + j) (by omega) (by omega)
    rw [hji] at hc
    refine ⟨c, hc, Or.inl ?_⟩
    rw [hci, hji, Nat.mod_eq_of_lt hi]

end mcmp_bounded_queue

end zoltan

namespace zoltan

namespace mcmp_bounded_queue

variable {T : Type}

/-! ## Effect of a call that returns true -/

theorem getElem?_some_lt {α : Type} {l : List α} {i : Nat} {a : α} (h : l[i]? = some a) :
    i < l.length := (List.getElem?_eq_some_iff.1 h).1

end mcmp_bounded_queue

end zoltan

namespace zoltan

namespace mcmp_bounded_queue

variable {T : Type}

/-! ## Behaviour of the cells -/

/-- C13, the claim as stated fails.  Capacity 2, one value accepted: the cell consumed by
the `dequeue` that follows carries `1` before the call and `2` after it, not `1 + 2`; the
same on 64-bit words. -/
theorem consume_jump_is_not_size :
    Reachable 2 (pushed 2 (init 2) "a") ∧
    dequeue 2 1 (pushed 2 (init 2) "a") "x" =
      some (popped 2 (pushed 2 (init 2) "a") "a", "a", true) ∧
    (pushed 2 (init 2) "a").m_queue[(pushed 2 (init 2) "a").m_read &&& SIZE_MASK 2]? =
      some { _data := "a", _index := 1 } ∧
    (popped 2 (pushed 2 (init 2) "a") "a").m_queue[
        (pushed 2 (init 2) "a").m_read &&& SIZE_MASK 2]? =
      some { _data := "a", _index := 2 } ∧
    (2 : Nat) ≠ 1 + 2 ∧
    Reachable_w 64 2 (pushed 2 (init 2) "a") ∧
    dequeue_w 64 2 1 (pushed 2 (init 2) "a") "x" =
      some (popped 2 (pushed 2 (init 2) "a") "a", "a", true) :=
  ⟨⟨1, [Call.enqueue "a"], [(true, "a")], by rfl⟩, rfl, rfl, rfl, by decide,
    ⟨1, [Call.enqueue "a"], [(true, "a")], by decide⟩, by decide⟩

/-- A pass of the `enqueue` loop that finds the cell ahead of its local cursor goes round
again with the same local cursor. -/
theorem enqueue_iter_overtaken (SIZE : Nat) (q : mcmp_bounded_queue T) (write_pos : Nat)
    (v : T) (c : cell T) (hc : q.m_queue[write_pos &&& SIZE_MASK SIZE]? = some c)
    (hd : (c._index : Int) - (write_pos : Int) > 0) :
    enqueue_iter SIZE q write_pos v = Iter.again write_pos := by
  have h0 : ¬ ((c._index : Int) - (write_pos : Int) = 0) := by omega
  have h1 : ¬ ((c._index : Int) - (write_pos : Int) < 0) := by omega
  simp [enqueue_iter, hc, h0, h1]

/-- C14, evaluated at the failing input.  Capacity 4; two values have been accepted, so
the write cursor is 2 and cells 0 and 1 carry 1 and 2.  A pass of the `enqueue` loop with
the overtaken local cursor 0 (or 1) sees `diff == 1` and goes round again with the same
local cursor, not with the write cursor 2.  The pass of the `dequeue` loop in the like
situation goes round again with the reloaded read cursor. -/
theorem enqueue_overtaken_keeps_cursor :
    (pushed 4 (pushed 4 (init 4) "a") "b").m_write = 2 ∧
    enqueue_iter 4 (pushed 4 (pushed 4 (init 4) "a") "b") 0 "c" = Iter.again 0 ∧
    enqueue_iter 4 (pushed 4 (pushed 4 (init 4) "a") "b") 1 "c" = Iter.again 1 ∧
    (popped 4 (popped 4 (pushed 4 (pushed 4 (init 4) "a") "b") "a") "b").m_read = 2 ∧
    dequeue_iter 4 (popped 4 (popped 4 (pushed 4 (pushed 4 (init 4) "a") "b") "a") "b") 0 "x" =
      Iter.again 2 :=
  ⟨rfl, rfl, rfl, rfl, rfl⟩

end mcmp_bounded_queue

end zoltan

namespace zoltan

namespace mcmp_bounded_queue

variable {T : Type}

/-- C17. Mask is modulo and indexing is in bounds: for every capacity `N` accepted by the
constructor's check and every cursor value `c`, `c & (N - 1)` equals `c mod N` and is
less than `N`; so with `N` allocated cells no pass of the `enqueue` or `dequeue` loop
indexes the slot array outside of it, whatever its local cursor. -/
theorem mask_in_bounds (N : Nat) (hN : static_assert N = true) (c : Nat) :
    c &&& SIZE_MASK N = c % N ∧ c &&& SIZE_MASK N < N ∧
    ∀ (q : mcmp_bounded_queue T) (data : T), q.m_queue.length = N →
      enqueue_iter N q c data ≠ Iter.fault ∧ dequeue_iter N q c data ≠ Iter.fault := by
  have h2 := two_le_of_static_assert hN
  have hm := mask_eq_mod hN c
  have hlt : c &&& SIZE_MASK N < N := by rw [hm]; exact Nat.mod_lt _ (by omega)
  refine ⟨hm, hlt, ?_⟩
  intro q data hlen
  have hget : q.m_queue[c &&& SIZE_MASK N]? = some (q.m_queue[c &&& SIZE_MASK N]) :=
    List.getElem?_eq_getElem (by omega)
  constructor
  · unfold enqueue_iter
    rw [hget]
    simp only
    split_ifs <;> simp
  · unfold dequeue_iter
    rw [hget]
    simp only
    split_ifs <;> simp

/-- Witness of C17 at capacity 1024 and cursor 1500. -/
theorem mask_in_bounds_witness :
    static_assert 1024 = true ∧
    (1500 &&& SIZE_MASK 1024 = 1500 % 1024 ∧ 1500 &&& SIZE_MASK 1024 < 1024 ∧
      ∀ (q : mcmp_bounded_queue String) (data : String), q.m_queue.length = 1024 →
        enqueue_iter 1024 q 1500 data ≠ Iter.fault ∧
          dequeue_iter 1024 q 1500 data ≠ Iter.fault) :=
  ⟨by decide, mask_in_bounds 1024 (by decide) 1500⟩

end mcmp_bounded_queue

end zoltan

namespace zoltan

namespace mcmp_bounded_queue

variable {T : Type}

/-- C18, the claim as stated fails.  On the header's picture the cell of the read cursor
is cell `13 & 7 = 5`, which carries `14 = 13 + 1`: `dequeue` sees `diff == 1`, hands out
the payload of that cell and returns true. -/
theorem header_empty_scenario_dequeues :
    (header_empty_scenario : mcmp_bounded_queue String).m_queue[13 &&& SIZE_MASK 8]? =
      some { _data := "", _index := 14 } ∧
    dequeue 8 1 (header_empty_scenario : mcmp_bounded_queue String) "x" =
      some (popped 8 header_empty_scenario "", "", true) :=
  ⟨rfl, rfl⟩

/-- C18 as amended.  For `SIZE = 8`, every state with read cursor 13 and write cursor 13
that sequential calls reach from a freshly constructed queue has the cell sequence
numbers `[16, 17, 18, 19, 20, 13, 14, 15]`, and `dequeue` returns false there, leaving the
state and the output variable as they were. -/
theorem empty_state_at_13 [Inhabited T] (q : mcmp_bounded_queue T) (hq : Reachable 8 q)
    (hr : q.m_read = 13) (hw : q.m_write = 13) (fuel : Nat) (hf : 0 < fuel) (out : T) :
    q.m_queue.map (fun c => c._index) = [16, 17, 18, 19, 20, 13, 14, 15] ∧
    dequeue 8 fuel q out = some (q, out, false) := by
  have hS : static_assert 8 = true := by decide
  obtain ⟨n, rfl⟩ : ∃ n, fuel = n + 1 := ⟨fuel - 1, by omega⟩
  obtain ⟨l, hR⟩ := reachable_rep hS hq
  have hl : l = [] := (rep_empty_iff hR).1 (by omega)
  subst hl
  refine ⟨?_, dequeue_none hS hR n out⟩
  have key : ∀ i, i < 8 → ∃ c, q.m_queue[i]? = some c ∧ c._index = 13 + (i + 3) % 8 := by
    intro i hi
    obtain ⟨c, hc, hci⟩ := rep_free hR (13 + (i + 3) % 8) (by omega) (by omega)
    rw [show (13 + (i + 3) % 8) % 8 = i by omega] at hc
    exact ⟨c, hc, hci⟩
  apply List.ext_getElem?
  intro i
  by_cases hi : i < 8
  · obtain ⟨c, hc, hci⟩ := key i hi
    rw [List.getElem?_map, hc]
    interval_cases i <;> simp [hci]
  · have hlen : q.m_queue.length = 8 := hR.1
    rw [List.getElem?_eq_none (by simp [hlen]; omega), List.getElem?_eq_none (by simp; omega)]

end mcmp_bounded_queue

end zoltan

namespace zoltan

namespace mcmp_bounded_queue

variable {T : Type}

/-- Witness of the amended C18: the state after thirteen rounds of `enqueue`, `dequeue`
of the default value on a queue of capacity 8. -/
theorem empty_state_at_13_witness :
    Reachable 8 (empty_at_13 : mcmp_bounded_queue Nat) ∧
    (empty_at_13 : mcmp_bounded_queue Nat).m_read = 13 ∧
    (empty_at_13 : mcmp_bounded_queue Nat).m_write = 13 ∧ 0 < 1 ∧
    ((empty_at_13 : mcmp_bounded_queue Nat).m_queue.map (fun c => c._index) =
        [16, 17, 18, 19, 20, 13, 14, 15] ∧
      dequeue 8 1 (empty_at_13 : mcmp_bounded_queue Nat) 7 = some (empty_at_13, 7, false)) :=
  ⟨⟨1, (List.replicate 13 [Call.enqueue 0, Call.dequeue 0]).flatten,
      (List.replicate 13 [(true, 0), (true, 0)]).flatten, by decide⟩,
    rfl, rfl, by decide,
    empty_state_at_13 empty_at_13
      ⟨1, (List.replicate 13 [Call.enqueue 0, Call.dequeue 0]).flatten,
        (List.replicate 13 [(true, 0), (true, 0)]).flatten, by decide⟩
      rfl rfl 1 (by decide) 7⟩

end mcmp_bounded_queue

end zoltan

namespace zoltan

namespace mcmp_bounded_queue

variable {T : Type}

/-! ## Word-level model against the unbounded one -/

theorem diff_w_wrap (w : Nat) (hw : 0 < w) (a b : Nat) (d : Int)
    (hd : (a : Int) - (b : Int) = d) (hlo : -(2 : Int) ^ (w - 1) ≤ d)
    (hhi : d < (2 : Int) ^ (w - 1)) : diff_w w (a % 2 ^ w) (b % 2 ^ w) = d := by
  have hM : (2 : Int) ^ w = 2 * (2 : Int) ^ (w - 1) := by
    obtain ⟨n, rfl⟩ : ∃ n, w = n + 1 := ⟨w - 1, by omega⟩
    simp [pow_succ, mul_comm]
  have hpos : (0 : Int) < (2 : Int) ^ (w - 1) := by positivity
  have hmod : (((a % 2 ^ w : Nat) : Int) - ((b % 2 ^ w : Nat) : Int)) % (2 : Int) ^ w =
      d % (2 : Int) ^ w := by
    push_cast
    rw [← Int.sub_emod, hd]
  unfold diff_w
  simp only [hmod]
  by_cases h0 : 0 ≤ d
  · have he : d % (2 : Int) ^ w = d := Int.emod_eq_of_lt h0 (by omega)
    rw [he, if_pos hhi]
  · have he : d % (2 : Int) ^ w = d + (2 : Int) ^ w := by
      rw [← Int.add_emod_self]
      exact Int.emod_eq_of_lt (by omega) (by omega)
    rw [he, if_neg (by omega)]
    omega

end mcmp_bounded_queue

end zoltan

namespace zoltan

namespace mcmp_bounded_queue

variable {T : Type}

theorem size_dvd_word {w SIZE : Nat} (hp : ∃ k, SIZE = 2 ^ k) (hlt : SIZE < 2 ^ w) :
    SIZE ∣ 2 ^ w := by
  obtain ⟨k, rfl⟩ := hp
  have hk : k < w := (Nat.pow_lt_pow_iff_right (by decide)).1 hlt
  exact pow_dvd_pow 2 (by omega)

theorem size_le_half {w SIZE : Nat} (hp : ∃ k, SIZE = 2 ^ k) (hlt : SIZE < 2 ^ w) :
    SIZE ≤ 2 ^ (w - 1) := by
  obtain ⟨k, rfl⟩ := hp
  have hk : k < w := (Nat.pow_lt_pow_iff_right (by decide)).1 hlt
  exact Nat.pow_le_pow_right (by decide) (by omega)

theorem word_pos {w SIZE : Nat} (h2 : 2 ≤ SIZE) (hlt : SIZE < 2 ^ w) : 0 < w := by
  rcases w with _ | w
  · simp at hlt; omega
  · omega

theorem index_wrap {w SIZE : Nat} (hS : static_assert SIZE = true) (hdvd : SIZE ∣ 2 ^ w)
    (x : Nat) : (x % 2 ^ w) &&& SIZE_MASK SIZE = x % SIZE := by
  rw [mask_eq_mod hS, Nat.mod_mod_of_dvd _ hdvd]

theorem wrap_lookup (w : Nat) (q : mcmp_bounded_queue T) (i : Nat) (c : cell T)
    (h : q.m_queue[i]? = some c) :
    (wrap w q).m_queue[i]? = some { _data := c._data, _index := c._index % 2 ^ w } := by
  simp [wrap, List.getElem?_map, h]

theorem enqueue_w_room {w SIZE : Nat} (hS : static_assert SIZE = true)
    (hp : ∃ k, SIZE = 2 ^ k) (hlt : SIZE < 2 ^ w)
    {q : mcmp_bounded_queue T} {l : List T} (hR : Rep SIZE q l) (hroom : l.length < SIZE)
    (fuel : Nat) (v : T) :
    enqueue_w w SIZE (fuel + 1) (wrap w q) v = some (wrap w (pushed SIZE q v), v, true) := by
  have hdvd := size_dvd_word hp hlt
  have hw := word_pos (two_le_of_static_assert hS) hlt
  obtain ⟨c, hc, hci⟩ := rep_free hR q.m_write le_rfl (by have := hR.2.1; omega)
  have hl := wrap_lookup w q _ c hc
  have hpos : (0 : Int) < (2 : Int) ^ (w - 1) := by positivity
  have hdiff : diff_w w (c._index % 2 ^ w) (wrap w q).m_write = 0 :=
    diff_w_wrap w hw _ _ 0 (by rw [hci]; omega) (by omega) hpos
  have hidx : (wrap w q).m_write &&& SIZE_MASK SIZE = q.m_write % SIZE :=
    index_wrap hS hdvd q.m_write
  simp only [enqueue_w, enqueue_loop_w, enqueue_iter_w, hidx, hl, hdiff, if_true]
  simp [wrap, pushed, List.map_set, mask_eq_mod hS]

theorem enqueue_w_full {w SIZE : Nat} (hS : static_assert SIZE = true)
    (hp : ∃ k, SIZE = 2 ^ k) (hlt : SIZE < 2 ^ w)
    {q : mcmp_bounded_queue T} {l : List T} (hR : Rep SIZE q l) (hfl : l.length = SIZE)
    (fuel : Nat) (v : T) :
    enqueue_w w SIZE (fuel + 1) (wrap w q) v = some (wrap w q, v, false) := by
  have hdvd := size_dvd_word hp hlt
  have h2 := two_le_of_static_assert hS
  have hw := word_pos h2 hlt
  have hwl := hR.2.1
  obtain ⟨c, hc, hci⟩ := rep_published hR q.m_read le_rfl (by omega)
  have hsame : q.m_write % SIZE = q.m_read % SIZE := by rw [hwl, hfl]; simp
  rw [← hsame] at hc
  have hl := wrap_lookup w q _ c hc
  have hlt' : ((SIZE : Nat) : Int) ≤ (2 : Int) ^ (w - 1) := by
    exact_mod_cast size_le_half hp hlt
  have hdiff : diff_w w (c._index % 2 ^ w) (wrap w q).m_write = 1 - (SIZE : Int) :=
    diff_w_wrap w hw _ _ _ (by rw [hci, hwl, hfl]; push_cast; omega) (by omega) (by omega)
  have hidx : (wrap w q).m_write &&& SIZE_MASK SIZE = q.m_write % SIZE :=
    index_wrap hS hdvd q.m_write
  have hne : ¬ (1 - (SIZE : Int) = 0) := by omega
  have hneg : 1 - (SIZE : Int) < 0 := by omega
  simp only [enqueue_w, enqueue_loop_w, enqueue_iter_w, hidx, hl, hdiff, if_neg hne,
    if_pos hneg]

theorem dequeue_w_some {w SIZE : Nat} (hS : static_assert SIZE = true)
    (hp : ∃ k, SIZE = 2 ^ k) (hlt : SIZE < 2 ^ w)
    {q : mcmp_bounded_queue T} {h : T} {t : List T} (hR : Rep SIZE q (h :: t))
    (fuel : Nat) (out : T) :
    dequeue_w w SIZE (fuel + 1) (wrap w q) out = some (wrap w (popped SIZE q h), h, true) := by
  have hdvd := size_dvd_word hp hlt
  have h2 := two_le_of_static_assert hS
  have hw := word_pos h2 hlt
  have hc := hR.2.2.2.1 0 h (by simp)
  simp only [Nat.add_zero] at hc
  have hl : (wrap w q).m_queue[q.m_read % SIZE]? =
      some { _data := h, _index := (q.m_read + 1) % 2 ^ w } := wrap_lookup w q _ _ hc
  have hlt' : ((SIZE : Nat) : Int) ≤ (2 : Int) ^ (w - 1) := by
    exact_mod_cast size_le_half hp hlt
  have hdiff : diff_w w ((q.m_read + 1) % 2 ^ w) (wrap w q).m_read = 1 :=
    diff_w_wrap w hw _ _ 1 (by push_cast; omega) (by omega) (by omega)
  have hidx : (wrap w q).m_read &&& SIZE_MASK SIZE = q.m_read % SIZE :=
    index_wrap hS hdvd q.m_read
  simp only [dequeue_w, dequeue_loop_w, dequeue_iter_w, hidx, hl, hdiff, if_true]
  simp [wrap, popped, List.map_set, mask_eq_mod hS]

theorem dequeue_w_none {w SIZE : Nat} (hS : static_assert SIZE = true)
    (hp : ∃ k, SIZE = 2 ^ k) (hlt : SIZE < 2 ^ w)
    {q : mcmp_bounded_queue T} (hR : Rep SIZE q [])
    (fuel : Nat) (out : T) :
    dequeue_w w SIZE (fuel + 1) (wrap w q) out = some (wrap w q, out, false) := by
  have hdvd := size_dvd_word hp hlt
  have h2 := two_le_of_static_assert hS
  have hw := word_pos h2 hlt
  obtain ⟨c, hc, hci⟩ := rep_free hR q.m_read (by have := hR.2.1; simp at this; omega)
    (by omega)
  have hl := wrap_lookup w q _ c hc
  have hpos : (0 : Int) < (2 : Int) ^ (w - 1) := by positivity
  have hdiff : diff_w w (c._index % 2 ^ w) (wrap w q).m_read = 0 :=
    diff_w_wrap w hw _ _ 0 (by rw [hci]; omega) (by omega) hpos
  have hidx : (wrap w q).m_read &&& SIZE_MASK SIZE = q.m_read % SIZE :=
    index_wrap hS hdvd q.m_read
  simp only [dequeue_w, dequeue_loop_w, dequeue_iter_w, hidx, hl, hdiff]
  simp

end mcmp_bounded_queue

end zoltan

namespace zoltan

namespace mcmp_bounded_queue

variable {T : Type}

theorem call_w_refines {w SIZE : Nat} (hS : static_assert SIZE = true)
    (hp : ∃ k, SIZE = 2 ^ k) (hlt : SIZE < 2 ^ w) (fuel : Nat)
    {q : mcmp_bounded_queue T} {l : List T} (hR : Rep SIZE q l) (c : Call T) :
    ∃ q', call_w w SIZE (fuel + 1) (wrap w q) c = some (wrap w q', (Fifo.call SIZE l c).2) ∧
      Rep SIZE q' (Fifo.call SIZE l c).1 := by
  cases c with
  | enqueue v =>
    by_cases hroom : l.length < SIZE
    · refine ⟨pushed SIZE q v, ?_, ?_⟩
      · simp [call_w, enqueue_w_room hS hp hlt hR hroom, Fifo.call, Fifo.enqueue, hroom]
      · simpa [Fifo.call, Fifo.enqueue, hroom] using rep_pushed hS hR hroom v
    · have hfl : l.length = SIZE := by have := hR.2.2.1; omega
      refine ⟨q, ?_, ?_⟩
      · simp [call_w, enqueue_w_full hS hp hlt hR hfl, Fifo.call, Fifo.enqueue, hfl]
      · simpa [Fifo.call, Fifo.enqueue, hfl] using hR
  | dequeue out =>
    cases l with
    | nil =>
      refine ⟨q, ?_, ?_⟩
      · simp [call_w, dequeue_w_none hS hp hlt hR, Fifo.call, Fifo.dequeue]
      · simpa [Fifo.call, Fifo.dequeue] using hR
    | cons h t =>
      refine ⟨popped SIZE q h, ?_, ?_⟩
      · simp [call_w, dequeue_w_some hS hp hlt hR, Fifo.call, Fifo.dequeue]
      · simpa [Fifo.call, Fifo.dequeue] using rep_popped hS hR

theorem run_w_refines {w SIZE : Nat} (hS : static_assert SIZE = true)
    (hp : ∃ k, SIZE = 2 ^ k) (hlt : SIZE < 2 ^ w) (fuel : Nat)
    (cs : List (Call T)) :
    ∀ (q : mcmp_bounded_queue T) (l : List T), Rep SIZE q l →
      ∃ q', run_w w SIZE (fuel + 1) (wrap w q) cs = some (wrap w q', (Fifo.run SIZE l cs).2) ∧
        Rep SIZE q' (Fifo.run SIZE l cs).1 := by
  induction cs with
  | nil => intro q l hR; exact ⟨q, rfl, hR⟩
  | cons c cs ih =>
    intro q l hR
    obtain ⟨q1, h1, hR1⟩ := call_w_refines hS hp hlt fuel hR c
    obtain ⟨q2, h2, hR2⟩ := ih q1 _ hR1
    exact ⟨q2, by simp [run_w, h1, h2, Fifo.run], by simpa [Fifo.run] using hR2⟩

theorem rep_start [Inhabited T] (SIZE k : Nat) :
    Rep SIZE (start SIZE k : mcmp_bounded_queue T) [] := by
  refine ⟨by simp [start], by simp [start], by simp, ?_, ?_⟩
  · intro i v h
    simp at h
  · intro i _ hi
    refine ⟨default, ?_⟩
    have hm : (k * SIZE + i) % SIZE = i := by
      rw [Nat.add_comm, Nat.add_mul_mod_self_right, Nat.mod_eq_of_lt hi]
    simp only [start, hm, List.getElem?_map, List.getElem?_range hi, Option.map_some']
    rw [Nat.add_comm]

theorem wrap_start [Inhabited T] (w SIZE k : Nat) :
    wrap w (start SIZE k : mcmp_bounded_queue T) = start_w w SIZE k := by
  simp [wrap, start, start_w]

theorem start_zero [Inhabited T] (SIZE : Nat) :
    (start SIZE 0 : mcmp_bounded_queue T) = init SIZE := by
  simp [start, init]

theorem start_w_zero [Inhabited T] {w SIZE : Nat} (hlt : SIZE < 2 ^ w) :
    (start_w w SIZE 0 : mcmp_bounded_queue T) = init SIZE := by
  simp only [start_w, init, Nat.zero_mul, Nat.add_zero, Nat.zero_mod]
  congr 1
  apply List.map_congr_left
  intro i hi
  have : i < SIZE := List.mem_range.1 hi
  rw [Nat.mod_eq_of_lt (by omega)]

/-- C19. Counter wrap-around safety: with cursors and sequence numbers held in `w`-bit
words and `diff` read as a two's-complement number, for every valid capacity
`SIZE < 2 ^ (w - 1)` and every `k`, the queue whose cursors start at
`k * SIZE mod 2 ^ w` and whose cell `i` starts at `(i + k * SIZE) mod 2 ^ w` answers every
sequence of sequential calls with the flags and outputs of the freshly constructed queue,
and these are the flags and outputs of the reference FIFO and of the queue with unbounded
counters. -/
theorem wrap_around_safety [Inhabited T] (w SIZE k : Nat) (h2 : 2 ≤ SIZE)
    (hp : ∃ j, SIZE = 2 ^ j) (hlt : SIZE < 2 ^ (w - 1)) (fuel : Nat) (hf : 0 < fuel)
    (cs : List (Call T)) :
    (run_w w SIZE fuel (start_w w SIZE k) cs).map Prod.snd =
      (run_w w SIZE fuel (init SIZE) cs).map Prod.snd ∧
    (run_w w SIZE fuel (init SIZE) cs).map Prod.snd = some (Fifo.run SIZE [] cs).2 ∧
    (run_w w SIZE fuel (init SIZE) cs).map Prod.snd =
      (run SIZE fuel (init SIZE) cs).map Prod.snd := by
  have hS := static_assert_of_pow h2 hp
  have hlt2 : SIZE < 2 ^ w :=
    lt_of_lt_of_le hlt (Nat.pow_le_pow_right (by decide) (Nat.sub_le w 1))
  obtain ⟨n, rfl⟩ : ∃ n, fuel = n + 1 := ⟨fuel - 1, by omega⟩
  have key : ∀ j, (run_w w SIZE (n + 1) (start_w w SIZE j) cs).map Prod.snd =
      some (Fifo.run SIZE [] cs).2 := by
    intro j
    obtain ⟨q', h, _⟩ := run_w_refines hS hp hlt2 n cs (start SIZE j) [] (rep_start SIZE j)
    rw [wrap_start] at h
    rw [h]
    rfl
  have hinit := key 0
  rw [start_w_zero hlt2] at hinit
  obtain ⟨q', h, _⟩ := run_refines hS n cs (init SIZE) [] (rep_init SIZE)
  refine ⟨by rw [key k, hinit], hinit, ?_⟩
  rw [hinit, h]
  rfl

/-- Witness of C19 with 4-bit words and capacity 2: started one round before the words
overflow, a history of ten accepted and ten delivered values. -/
theorem wrap_around_safety_witness :
    2 ≤ 2 ∧ (∃ j, 2 = 2 ^ j) ∧ 2 < 2 ^ (4 - 1) ∧ 0 < 1 ∧
    ((run_w 4 2 1 (start_w 4 2 7)
        (List.replicate 10 [Call.enqueue 5, Call.dequeue 0]).flatten).map Prod.snd =
      (run_w 4 2 1 (init 2)
        (List.replicate 10 [Call.enqueue 5, Call.dequeue 0]).flatten).map Prod.snd ∧
    (run_w 4 2 1 (init 2)
        (List.replicate 10 [Call.enqueue 5, Call.dequeue 0]).flatten).map Prod.snd =
      some (Fifo.run 2 []
        (List.replicate 10 [Call.enqueue 5, Call.dequeue 0]).flatten).2 ∧
    (run_w 4 2 1 (init 2)
        (List.replicate 10 [Call.enqueue 5, Call.dequeue 0]).flatten).map Prod.snd =
      (run 2 1 (init 2)
        (List.replicate 10 [Call.enqueue 5, Call.dequeue 0]).flatten).map Prod.snd) :=
  ⟨by decide, ⟨1, rfl⟩, by decide, by decide,
    wrap_around_safety 4 2 7 (by decide) ⟨1, rfl⟩ (by decide) 1 (by decide) _⟩

end mcmp_bounded_queue

end zoltan


namespace zoltan

namespace mcmp_bounded_queue

variable {T : Type}

/-! ## The word-level run is the unbounded run, reduced -/

theorem call_w_wrap {w SIZE : Nat} (hS : static_assert SIZE = true)
    (hp : ∃ k, SIZE = 2 ^ k) (hlt : SIZE < 2 ^ w) (fuel : Nat)
    {q : mcmp_bounded_queue T} {l : List T} (hR : Rep SIZE q l) (c : Call T) :
    call_w w SIZE (fuel + 1) (wrap w q) c =
      (call SIZE (fuel + 1) q c).map (fun r => (wrap w r.1, r.2)) := by
  cases c with
  | enqueue v =>
    by_cases hroom : l.length < SIZE
    · simp [call_w, call, enqueue_w_room hS hp hlt hR hroom, enqueue_room hS hR hroom]
    · have hfl : l.length = SIZE := by have := hR.2.2.1; omega
      simp [call_w, call, enqueue_w_full hS hp hlt hR hfl, enqueue_full hS hR hfl]
  | dequeue out =>
    cases l with
    | nil => simp [call_w, call, dequeue_w_none hS hp hlt hR, dequeue_none hS hR]
    | cons h t => simp [call_w, call, dequeue_w_some hS hp hlt hR, dequeue_some hS hR]

theorem run_w_wrap {w SIZE : Nat} (hS : static_assert SIZE = true)
    (hp : ∃ k, SIZE = 2 ^ k) (hlt : SIZE < 2 ^ w) (fuel : Nat) (cs : List (Call T)) :
    ∀ (q : mcmp_bounded_queue T) (l : List T), Rep SIZE q l →
      run_w w SIZE (fuel + 1) (wrap w q) cs =
        (run SIZE (fuel + 1) q cs).map (fun r => (wrap w r.1, r.2)) := by
  induction cs with
  | nil => intro q l _; rfl
  | cons c cs ih =>
    intro q l hR
    obtain ⟨q1, h1, hR1⟩ := call_refines hS fuel hR c
    have hw1 := call_w_wrap hS hp hlt fuel hR c
    rw [h1] at hw1
    simp only [Option.map_some'] at hw1
    simp only [run_w, run, hw1, h1, ih q1 _ hR1]
    cases run SIZE (fuel + 1) q1 cs with
    | none => rfl
    | some r => rfl

theorem wrap_init [Inhabited T] {w SIZE : Nat} (hlt : SIZE < 2 ^ w) :
    wrap w (init SIZE : mcmp_bounded_queue T) = init SIZE := by
  have h := wrap_start (T := T) w SIZE 0
  rwa [start_zero, start_w_zero hlt] at h

theorem call_w_zero_fuel (w SIZE : Nat) (q : mcmp_bounded_queue T) (c : Call T) :
    call_w w SIZE 0 q c = none := by
  cases c <;> simp [call_w, enqueue_w, dequeue_w, enqueue_loop_w, dequeue_loop_w]

/-- A history run on `w`-bit words from the fresh queue ends in the reduction of the state
the unbounded run ends in, with the same flags and outputs. -/
theorem run_w_init [Inhabited T] {w SIZE : Nat} (hS : static_assert SIZE = true)
    (hp : ∃ k, SIZE = 2 ^ k) (hlt : SIZE < 2 ^ w) (fuel : Nat) (cs : List (Call T)) :
    run_w w SIZE (fuel + 1) (init SIZE) cs =
      (run SIZE (fuel + 1) (init SIZE) cs).map (fun r => (wrap w r.1, r.2)) := by
  have h := run_w_wrap hS hp hlt fuel cs (init SIZE) [] (rep_init SIZE)
  rwa [wrap_init hlt] at h

theorem reachable_w_rep [Inhabited T] {w SIZE : Nat} (hS : static_assert SIZE = true)
    (hp : ∃ k, SIZE = 2 ^ k) (hlt : SIZE < 2 ^ w)
    {q : mcmp_bounded_queue T} (hq : Reachable_w w SIZE q) :
    ∃ q0 l, q = wrap w q0 ∧ Rep SIZE q0 l := by
  obtain ⟨fuel, cs, ss, h⟩ := hq
  rcases fuel with _ | fuel
  · cases cs with
    | nil =>
      simp [run_w] at h
      exact ⟨init SIZE, [], by rw [wrap_init hlt]; exact h.1.symm, rep_init SIZE⟩
    | cons c cs => simp [run_w, call_w_zero_fuel] at h
  · rw [run_w_init hS hp hlt] at h
    obtain ⟨q', h', hR⟩ := run_refines hS fuel cs (init SIZE) [] (rep_init SIZE)
    rw [h'] at h
    simp at h
    exact ⟨q', _, h.1.symm, hR⟩

theorem rounds_succ (n : Nat) (v o : T) :
    rounds (n + 1) v o = Call.enqueue v :: Call.dequeue o :: rounds n v o := by
  simp [rounds, List.replicate_succ]

/-- The unbounded run of `n` rounds from an empty state; payloads that all equal the
enqueued value stay so. -/
theorem run_rounds {SIZE : Nat} (hS : static_assert SIZE = true) (fuel : Nat) (v o : T)
    (n : Nat) :
    ∀ q : mcmp_bounded_queue T, Rep SIZE q [] →
      ∃ q' ss, run SIZE (fuel + 1) q (rounds n v o) = some (q', ss) ∧ Rep SIZE q' [] ∧
        q'.m_write = q.m_write + n ∧ q'.m_read = q.m_read + n ∧
        accepted (rounds n v o) ss = n ∧ delivered (rounds n v o) ss = n ∧
        ((∀ c ∈ q.m_queue, c._data = v) → ∀ c ∈ q'.m_queue, c._data = v) := by
  induction n with
  | zero =>
    intro q hR
    exact ⟨q, [], rfl, hR, rfl, rfl, rfl, rfl, fun h => h⟩
  | succ n ih =>
    intro q hR
    have h2 := two_le_of_static_assert hS
    have hroom : ([] : List T).length < SIZE := by simp; omega
    have hR1 : Rep SIZE (pushed SIZE q v) [v] := by simpa using rep_pushed hS hR hroom v
    have hR2 : Rep SIZE (popped SIZE (pushed SIZE q v) v) [] := rep_popped hS hR1
    obtain ⟨q', ss, hrun, hR', hw, hr, ha, hd, hdata⟩ := ih _ hR2
    refine ⟨q', (true, v) :: (true, v) :: ss, ?_, hR', ?_, ?_, ?_, ?_, ?_⟩
    · rw [rounds_succ]
      simp only [run, call, enqueue_room hS hR hroom, dequeue_some hS hR1, Option.map_some',
        hrun]
    · rw [hw]; simp [popped, pushed]; omega
    · rw [hr]; simp [popped, pushed]; omega
    · rw [rounds_succ]; simp only [accepted, ha]
    · rw [rounds_succ]; simp only [delivered, hd]
    · intro hq
      apply hdata
      intro c hc
      simp only [popped, pushed] at hc
      rcases List.mem_or_eq_of_mem_set hc with hc1 | rfl
      · rcases List.mem_or_eq_of_mem_set hc1 with hc2 | rfl
        · exact hq c hc2
        · rfl
      · rfl

/-- The word-level run of `n` rounds of the value `0` from the fresh queue of capacity 2:
the state it ends in, cell by cell, and the numbers of accepted and delivered values. -/
theorem run_w_rounds_two {w : Nat} (hlt : 2 < 2 ^ w) (n : Nat) :
    ∃ ss : List (Seen Nat),
      run_w w 2 1 (init 2) (rounds n 0 0) =
        some ({ m_queue := [{ _data := 0, _index := (n + n % 2) % 2 ^ w },
                            { _data := 0, _index := (n + (n + 1) % 2) % 2 ^ w }],
                m_read := n % 2 ^ w, m_write := n % 2 ^ w }, ss) ∧
      accepted (rounds n 0 0) ss = n ∧ delivered (rounds n 0 0) ss = n := by
  have hS : static_assert 2 = true := by decide
  obtain ⟨q0, ss, hrun, hR, hw, hr, ha, hd, hdata⟩ :=
    run_rounds hS 0 (0 : Nat) 0 n (init 2) (rep_init 2)
  have hw' : q0.m_write = n := by simpa [init] using hw
  have hr' : q0.m_read = n := by simpa [init] using hr
  have hdata' : ∀ c ∈ q0.m_queue, c._data = 0 := by
    apply hdata
    intro c hc
    simp [init] at hc
    rcases hc with ⟨a, _, rfl⟩
    rfl
  obtain ⟨a, b, hab⟩ := List.length_eq_two.1 hR.1
  obtain ⟨c0, hc0, hi0⟩ := rep_free hR (n + n % 2) (by omega) (by omega)
  obtain ⟨c1, hc1, hi1⟩ := rep_free hR (n + (n + 1) % 2) (by omega) (by omega)
  rw [show (n + n % 2) % 2 = 0 by omega, hab] at hc0
  rw [show (n + (n + 1) % 2) % 2 = 1 by omega, hab] at hc1
  simp at hc0 hc1
  subst hc0 hc1
  have ha0 : a._data = 0 := hdata' a (by simp [hab])
  have hb0 : b._data = 0 := hdata' b (by simp [hab])
  have hq0 : q0 = { m_queue := [{ _data := 0, _index := n + n % 2 },
                                { _data := 0, _index := n + (n + 1) % 2 }],
                    m_read := n, m_write := n } := by
    rcases q0 with ⟨mq, r, wr⟩
    rcases a with ⟨ad, ai⟩
    rcases b with ⟨bd, bi⟩
    simp only at hab hw' hr' hi0 hi1 ha0 hb0
    subst hab hw' hr' hi0 hi1 ha0 hb0
    rfl
  refine ⟨ss, ?_, ha, hd⟩
  rw [run_w_init hS ⟨1, rfl⟩ hlt, hrun, hq0]
  rfl

end mcmp_bounded_queue

end zoltan


namespace zoltan

namespace mcmp_bounded_queue

variable {T : Type}

/-! ## Effect of a word-level call that returns true -/

/-- A pass of the word-level `enqueue` loop whose local cursor is the shared write
cursor. -/
theorem enqueue_iter_w_own (w SIZE : Nat) (q : mcmp_bounded_queue T) (v : T) :
    (∃ c, q.m_queue[q.m_write &&& SIZE_MASK SIZE]? = some c ∧
        enqueue_iter_w w SIZE q q.m_write v =
          Iter.ret
            { q with
              m_write := (q.m_write + 1) % 2 ^ w
              m_queue := q.m_queue.set (q.m_write &&& SIZE_MASK SIZE)
                { _data := v, _index := (q.m_write + 1) % 2 ^ w } }
            v true) ∨
      enqueue_iter_w w SIZE q q.m_write v = Iter.ret q v false ∨
      enqueue_iter_w w SIZE q q.m_write v = Iter.again q.m_write ∨
      enqueue_iter_w w SIZE q q.m_write v = Iter.fault := by
  unfold enqueue_iter_w
  cases hc : q.m_queue[q.m_write &&& SIZE_MASK SIZE]? with
  | none => simp
  | some c =>
    simp only
    by_cases h0 : diff_w w c._index q.m_write = 0
    · left
      exact ⟨c, rfl, by simp [h0]⟩
    · by_cases h1 : diff_w w c._index q.m_write < 0
      · right; left; simp [h0, h1]
      · right; right; left; simp [h0, h1]

theorem enqueue_loop_w_true (w SIZE : Nat) (q : mcmp_bounded_queue T) (v : T) :
    ∀ (fuel : Nat) (q' : mcmp_bounded_queue T) (d : T),
      enqueue_loop_w w SIZE q v fuel q.m_write = some (q', d, true) →
        d = v ∧ ∃ c, q.m_queue[q.m_write &&& SIZE_MASK SIZE]? = some c ∧
          q' = { q with
                 m_write := (q.m_write + 1) % 2 ^ w
                 m_queue := q.m_queue.set (q.m_write &&& SIZE_MASK SIZE)
                   { _data := v, _index := (q.m_write + 1) % 2 ^ w } } := by
  intro fuel
  induction fuel with
  | zero => intro q' d h; simp [enqueue_loop_w] at h
  | succ n ih =>
    intro q' d h
    simp only [enqueue_loop_w] at h
    rcases enqueue_iter_w_own w SIZE q v with ⟨c, hc, hi⟩ | hi | hi | hi
    · rw [hi] at h
      simp at h
      exact ⟨h.2.symm, c, hc, h.1.symm⟩
    · rw [hi] at h; simp at h
    · rw [hi] at h; exact ih q' d h
    · rw [hi] at h; simp at h

/-- A pass of the word-level `dequeue` loop whose local cursor is the shared read
cursor. -/
theorem dequeue_iter_w_own (w SIZE : Nat) (q : mcmp_bounded_queue T) (out : T) :
    (∃ c, q.m_queue[q.m_read &&& SIZE_MASK SIZE]? = some c ∧
        dequeue_iter_w w SIZE q q.m_read out =
          Iter.ret
            { q with
              m_read := (q.m_read + 1) % 2 ^ w
              m_queue := q.m_queue.set (q.m_read &&& SIZE_MASK SIZE)
                { _data := c._data, _index := (q.m_read + SIZE) % 2 ^ w } }
            c._data true) ∨
      dequeue_iter_w w SIZE q q.m_read out = Iter.ret q out false ∨
      dequeue_iter_w w SIZE q q.m_read out = Iter.again q.m_read ∨
      dequeue_iter_w w SIZE q q.m_read out = Iter.fault := by
  unfold dequeue_iter_w
  cases hc : q.m_queue[q.m_read &&& SIZE_MASK SIZE]? with
  | none => simp
  | some c =>
    simp only
    by_cases h1 : diff_w w c._index q.m_read = 1
    · left
      exact ⟨c, rfl, by simp [h1]⟩
    · by_cases h0 : diff_w w c._index q.m_read = 0
      · right; left; simp [h0]
      · right; right; left; simp [h0, h1]

theorem dequeue_loop_w_true (w SIZE : Nat) (q : mcmp_bounded_queue T) (out : T) :
    ∀ (fuel : Nat) (q' : mcmp_bounded_queue T) (d : T),
      dequeue_loop_w w SIZE q out fuel q.m_read = some (q', d, true) →
        ∃ c, q.m_queue[q.m_read &&& SIZE_MASK SIZE]? = some c ∧ d = c._data ∧
          q' = { q with
                 m_read := (q.m_read + 1) % 2 ^ w
                 m_queue := q.m_queue.set (q.m_read &&& SIZE_MASK SIZE)
                   { _data := c._data, _index := (q.m_read + SIZE) % 2 ^ w } } := by
  intro fuel
  induction fuel with
  | zero => intro q' d h; simp [dequeue_loop_w] at h
  | succ n ih =>
    intro q' d h
    simp only [dequeue_loop_w] at h
    rcases dequeue_iter_w_own w SIZE q out with ⟨c, hc, hi⟩ | hi | hi | hi
    · rw [hi] at h
      simp at h
      exact ⟨c, hc, h.2.symm, h.1.symm⟩
    · rw [hi] at h; simp at h
    · rw [hi] at h; exact ih q' d h
    · rw [hi] at h; simp at h

/-- The difference of two reduced counters, reduced, is the reduced difference. -/
theorem wrapped_sub (w a b : Nat) :
    (((a % 2 ^ w : Nat) : Int) - ((b % 2 ^ w : Nat) : Int)) % (2 : Int) ^ w =
      ((a : Int) - (b : Int)) % (2 : Int) ^ w := by
  push_cast
  rw [← Int.sub_emod]

/-- The reduced difference of the cursors of a reduced state is the number of values
held. -/
theorem wrapped_held {w SIZE : Nat} (hlt : SIZE < 2 ^ w) {q : mcmp_bounded_queue T}
    {l : List T} (hR : Rep SIZE q l) :
    (((wrap w q).m_write : Int) - ((wrap w q).m_read : Int)) % (2 : Int) ^ w =
      (l.length : Int) := by
  have hw := hR.2.1
  have hle := hR.2.2.1
  have hM : ((SIZE : Nat) : Int) < (2 : Int) ^ w := by exact_mod_cast hlt
  show (((q.m_write % 2 ^ w : Nat) : Int) - ((q.m_read % 2 ^ w : Nat) : Int)) % (2 : Int) ^ w
    = (l.length : Int)
  rw [wrapped_sub, hw]
  push_cast
  rw [show (q.m_read : Int) + (l.length : Int) - (q.m_read : Int) = (l.length : Int) by omega]
  exact Int.emod_eq_of_lt (by omega) (by omega)

end mcmp_bounded_queue

end zoltan


namespace zoltan

namespace mcmp_bounded_queue

variable {T : Type}

/-! ## Histories that make the 64-bit cursors wrap -/

/-- After `2 ^ 64` rounds on 64-bit words the queue of capacity 2 is in the state of the
fresh queue again, with `2 ^ 64` values accepted and delivered. -/
theorem reach_full_turn :
    ∃ ss : List (Seen Nat),
      run_w 64 2 1 (init 2) (rounds (2 ^ 64) 0 0) = some (init 2, ss) ∧
      accepted (rounds (2 ^ 64) 0 0) ss = 2 ^ 64 ∧
      delivered (rounds (2 ^ 64) 0 0) ss = 2 ^ 64 := by
  obtain ⟨ss, h, ha, hd⟩ := run_w_rounds_two (by norm_num : 2 < 2 ^ 64) (2 ^ 64)
  refine ⟨ss, ?_, ha, hd⟩
  rw [h]
  simp only [Option.some.injEq, Prod.mk.injEq, and_true]
  decide

/-- After `2 ^ 64 - 1` rounds on 64-bit words the queue of capacity 2 is in the state
`at_wrap`. -/
theorem reach_at_wrap :
    ∃ ss : List (Seen Nat),
      run_w 64 2 1 (init 2) (rounds (2 ^ 64 - 1) 0 0) = some (at_wrap, ss) ∧
      accepted (rounds (2 ^ 64 - 1) 0 0) ss = 2 ^ 64 - 1 ∧
      delivered (rounds (2 ^ 64 - 1) 0 0) ss = 2 ^ 64 - 1 := by
  obtain ⟨ss, h, ha, hd⟩ := run_w_rounds_two (by norm_num : 2 < 2 ^ 64) (2 ^ 64 - 1)
  refine ⟨ss, ?_, ha, hd⟩
  rw [h]
  simp only [Option.some.injEq, Prod.mk.injEq, and_true]
  decide

end mcmp_bounded_queue

end zoltan


namespace zoltan

namespace mcmp_bounded_queue

variable {T : Type}

/-! ## Effect and frame of successful calls on `w`-bit words -/

theorem enqueue_w_frame (w SIZE fuel : Nat) (q q' : mcmp_bounded_queue T) (v d : T)
    (h : enqueue_w w SIZE fuel q v = some (q', d, true)) :
    q'.m_queue[q.m_write &&& SIZE_MASK SIZE]? =
        some { _data := v, _index := (q.m_write + 1) % 2 ^ w } ∧
      q'.m_write = (q.m_write + 1) % 2 ^ w ∧ q'.m_read = q.m_read ∧
      (∀ j, j ≠ q.m_write &&& SIZE_MASK SIZE → q'.m_queue[j]? = q.m_queue[j]?) ∧
      q'.m_queue.length = q.m_queue.length ∧ d = v := by
  obtain ⟨rfl, c, hc, rfl⟩ := enqueue_loop_w_true w SIZE q v fuel q' d h
  refine ⟨?_, rfl, rfl, ?_, ?_, rfl⟩
  · simp [List.getElem?_set, getElem?_some_lt hc]
  · intro j hj
    simp [List.getElem?_set, Ne.symm hj]
  · simp

theorem dequeue_w_frame (w SIZE fuel : Nat) (q q' : mcmp_bounded_queue T) (out d : T)
    (h : dequeue_w w SIZE fuel q out = some (q', d, true)) :
    ∃ c, q.m_queue[q.m_read &&& SIZE_MASK SIZE]? = some c ∧ d = c._data ∧
      q'.m_queue[q.m_read &&& SIZE_MASK SIZE]? =
        some { _data := c._data, _index := (q.m_read + SIZE) % 2 ^ w } ∧
      q'.m_read = (q.m_read + 1) % 2 ^ w ∧ q'.m_write = q.m_write ∧
      (∀ j, j ≠ q.m_read &&& SIZE_MASK SIZE → q'.m_queue[j]? = q.m_queue[j]?) ∧
      q'.m_queue.length = q.m_queue.length := by
  obtain ⟨c, hc, rfl, rfl⟩ := dequeue_loop_w_true w SIZE q out fuel q' d h
  refine ⟨c, hc, rfl, ?_, rfl, rfl, ?_, ?_⟩
  · simp [List.getElem?_set, getElem?_some_lt hc]
  · intro j hj
    simp [List.getElem?_set, Ne.symm hj]
  · simp

/-- In a state reached on `w`-bit words, a `dequeue` that returns true found the cell of
the read cursor one above the read cursor, modulo `2 ^ w`. -/
theorem dequeue_w_before {w SIZE : Nat} (hS : static_assert SIZE = true)
    (hp : ∃ k, SIZE = 2 ^ k) (hlt : SIZE < 2 ^ w) [Inhabited T]
    {q : mcmp_bounded_queue T} (hq : Reachable_w w SIZE q) (fuel : Nat) (out : T)
    (q' : mcmp_bounded_queue T) (d : T)
    (h : dequeue_w w SIZE fuel q out = some (q', d, true)) :
    ∃ c, q.m_queue[q.m_read &&& SIZE_MASK SIZE]? = some c ∧
      c._index = (q.m_read + 1) % 2 ^ w := by
  obtain ⟨q0, l, rfl, hR⟩ := reachable_w_rep hS hp hlt hq
  have hdvd := size_dvd_word hp hlt
  rcases fuel with _ | n
  · simp [dequeue_w, dequeue_loop_w] at h
  · cases l with
    | nil =>
      rw [dequeue_w_none hS hp hlt hR] at h
      simp at h
    | cons a t =>
      have hc := hR.2.2.2.1 0 a (by simp)
      simp only [Nat.add_zero] at hc
      have hl := wrap_lookup w q0 _ _ hc
      have hidx : (wrap w q0).m_read &&& SIZE_MASK SIZE = q0.m_read % SIZE :=
        index_wrap hS hdvd q0.m_read
      rw [hidx]
      refine ⟨_, hl, ?_⟩
      show (q0.m_read + 1) % 2 ^ w = (q0.m_read % 2 ^ w + 1) % 2 ^ w
      rw [Nat.mod_add_mod]

end mcmp_bounded_queue

end zoltan


namespace zoltan

namespace mcmp_bounded_queue

variable {T : Type}

/-! ## Cursor values on `w`-bit words -/

/-- C5, the claim as stated fails.  With 64-bit words and capacity 2, the `2 ^ 64` rounds
of `enqueue(0)`, `dequeue` all return true and lead back to the state of the fresh queue:
`2 ^ 64` values have been accepted and `2 ^ 64` delivered, and both cursors are `0`. -/
theorem cursor_wraps_below_count :
    ∃ ss : List (Seen Nat),
      run_w 64 2 1 (init 2) (rounds (2 ^ 64) 0 0) = some (init 2, ss) ∧
      accepted (rounds (2 ^ 64) 0 0) ss = 2 ^ 64 ∧
      delivered (rounds (2 ^ 64) 0 0) ss = 2 ^ 64 ∧
      (init 2 : mcmp_bounded_queue Nat).m_write = 0 ∧
      (init 2 : mcmp_bounded_queue Nat).m_read = 0 ∧
      (init 2 : mcmp_bounded_queue Nat).m_write ≠ 2 ^ 64 := by
  obtain ⟨ss, h, ha, hd⟩ := reach_full_turn
  exact ⟨ss, h, ha, hd, rfl, rfl, by decide⟩

/-- C5 as amended.  With cursors held in `w`-bit words, every sequence of sequential
calls on a freshly constructed queue of valid capacity runs to a state in which the write
cursor is the number of enqueue calls that returned true modulo `2 ^ w`, the read cursor
is the number of dequeue calls that returned true modulo `2 ^ w`, the first number
exceeds the second by at least `0` and at most `SIZE`, and this excess is the write
cursor minus the read cursor modulo `2 ^ w`.  (The calls return what the reference FIFO
returns.) -/
theorem capacity_bound_w [Inhabited T] (w SIZE : Nat) (h2 : 2 ≤ SIZE)
    (hp : ∃ k, SIZE = 2 ^ k) (hlt : SIZE < 2 ^ w) (fuel : Nat) (hf : 0 < fuel)
    (cs : List (Call T)) :
    ∃ q ss, run_w w SIZE fuel (init SIZE) cs = some (q, ss) ∧
      ss = (Fifo.run SIZE [] cs).2 ∧
      q.m_write = accepted cs ss % 2 ^ w ∧ q.m_read = delivered cs ss % 2 ^ w ∧
      delivered cs ss ≤ accepted cs ss ∧ accepted cs ss ≤ delivered cs ss + SIZE ∧
      ((q.m_write : Int) - (q.m_read : Int)) % (2 : Int) ^ w =
        (accepted cs ss : Int) - (delivered cs ss : Int) := by
  have hS := static_assert_of_pow h2 hp
  obtain ⟨n, rfl⟩ : ∃ n, fuel = n + 1 := ⟨fuel - 1, by omega⟩
  obtain ⟨q0, ss, l, hrun, hR, hw, hr⟩ := run_counts hS n cs (init SIZE) [] (rep_init SIZE)
  obtain ⟨q1, hrun1, _⟩ := run_refines hS n cs (init SIZE) [] (rep_init SIZE)
  have hss : ss = (Fifo.run SIZE [] cs).2 := by
    rw [hrun] at hrun1
    simp only [Option.some.injEq, Prod.mk.injEq] at hrun1
    exact hrun1.2
  have hw' : q0.m_write = accepted cs ss := by simpa [init] using hw
  have hr' : q0.m_read = delivered cs ss := by simpa [init] using hr
  have hwl := hR.2.1
  have hle := hR.2.2.1
  refine ⟨wrap w q0, ss, ?_, hss, ?_, ?_, by omega, by omega, ?_⟩
  · rw [run_w_init hS hp hlt, hrun]; rfl
  · show q0.m_write % 2 ^ w = _
    rw [hw']
  · show q0.m_read % 2 ^ w = _
    rw [hr']
  · rw [wrapped_held hlt hR]
    omega

/-- Witness of the amended C5 with 64-bit words at capacity 2. -/
theorem capacity_bound_w_witness :
    2 ≤ 2 ∧ (∃ k, 2 = 2 ^ k) ∧ 2 < 2 ^ 64 ∧ 0 < 1 ∧
    run_w 64 2 1 (init 2)
        [Call.enqueue 5, Call.enqueue 6, Call.enqueue 7, Call.dequeue 0] =
      some ({ m_queue := [{ _data := 5, _index := 2 }, { _data := 6, _index := 2 }],
              m_read := 1, m_write := 2 },
            [(true, 5), (true, 6), (false, 7), (true, 5)]) ∧
    ∃ q ss,
      run_w 64 2 1 (init 2)
          [Call.enqueue 5, Call.enqueue 6, Call.enqueue 7, Call.dequeue 0] = some (q, ss) ∧
      ss = (Fifo.run 2 []
        [Call.enqueue 5, Call.enqueue 6, Call.enqueue 7, Call.dequeue 0]).2 ∧
      q.m_write =
        accepted [Call.enqueue 5, Call.enqueue 6, Call.enqueue 7, Call.dequeue 0] ss
          % 2 ^ 64 ∧
      q.m_read =
        delivered [Call.enqueue 5, Call.enqueue 6, Call.enqueue 7, Call.dequeue 0] ss
          % 2 ^ 64 ∧
      delivered [Call.enqueue 5, Call.enqueue 6, Call.enqueue 7, Call.dequeue 0] ss ≤
        accepted [Call.enqueue 5, Call.enqueue 6, Call.enqueue 7, Call.dequeue 0] ss ∧
      accepted [Call.enqueue 5, Call.enqueue 6, Call.enqueue 7, Call.dequeue 0] ss ≤
        delivered [Call.enqueue 5, Call.enqueue 6, Call.enqueue 7, Call.dequeue 0] ss + 2 ∧
      ((q.m_write : Int) - (q.m_read : Int)) % (2 : Int) ^ 64 =
        (accepted [Call.enqueue 5, Call.enqueue 6, Call.enqueue 7, Call.dequeue 0] ss : Int)
          - (delivered [Call.enqueue 5, Call.enqueue 6, Call.enqueue 7, Call.dequeue 0] ss
              : Int) :=
  ⟨by decide, ⟨1, rfl⟩, by norm_num, by decide, by decide,
    capacity_bound_w 64 2 (by decide) ⟨1, rfl⟩ (by norm_num) 1 (by decide) _⟩

/-- C6, the claim as stated fails.  With 64-bit words and capacity 2, after
`2 ^ 64 - 1` rounds two more values are accepted; the write cursor has wrapped to `1`
while the read cursor is `2 ^ 64 - 1`.  The queue is full and `enqueue` returns false,
but the write cursor minus the read cursor is `2 - 2 ^ 64`, not `2`. -/
theorem enqueue_full_at_wrap :
    (∃ ss : List (Seen Nat),
      run_w 64 2 1 (init 2) (rounds (2 ^ 64 - 1) 0 0) = some (at_wrap, ss)) ∧
    run_w 64 2 1 at_wrap [Call.enqueue 0, Call.enqueue 0] =
      some ({ m_queue := [{ _data := 0, _index := 1 }, { _data := 0, _index := 0 }],
              m_read := 2 ^ 64 - 1, m_write := 1 }, [(true, 0), (true, 0)]) ∧
    enqueue_w 64 2 1
        { m_queue := [{ _data := 0, _index := 1 }, { _data := 0, _index := 0 }],
          m_read := 2 ^ 64 - 1, m_write := 1 } 9 =
      some ({ m_queue := [{ _data := 0, _index := 1 }, { _data := 0, _index := 0 }],
              m_read := 2 ^ 64 - 1, m_write := 1 }, 9, false) ∧
    ((1 : Nat) : Int) - ((2 ^ 64 - 1 : Nat) : Int) ≠ ((2 : Nat) : Int) := by
  obtain ⟨ss, h, _⟩ := reach_at_wrap
  exact ⟨⟨ss, h⟩, by decide, by decide, by decide⟩

/-- C6 as amended.  With cursors held in `w`-bit words, in every state reached by
sequential calls from a freshly constructed queue of valid capacity `enqueue` returns, and
it returns false if and only if the write cursor minus the read cursor, taken modulo
`2 ^ w`, equals `SIZE` (when the stored write cursor is not below the stored read cursor
this is their plain difference); the full state is reached, and `enqueue` returns false
there and leaves it as it was; and `enqueue` returns true on the fresh queue. -/
theorem enqueue_result_w [Inhabited T] (w SIZE : Nat) (h2 : 2 ≤ SIZE)
    (hp : ∃ k, SIZE = 2 ^ k) (hlt : SIZE < 2 ^ w) (fuel : Nat) (hf : 0 < fuel) (v : T) :
    (∀ q : mcmp_bounded_queue T, Reachable_w w SIZE q →
      ∃ q' b, enqueue_w w SIZE fuel q v = some (q', v, b) ∧
        (b = false ↔
          ((q.m_write : Int) - (q.m_read : Int)) % (2 : Int) ^ w = (SIZE : Int)) ∧
        (q.m_read ≤ q.m_write → (b = false ↔ q.m_write - q.m_read = SIZE))) ∧
    (∃ q : mcmp_bounded_queue T, Reachable_w w SIZE q ∧
      ((q.m_write : Int) - (q.m_read : Int)) % (2 : Int) ^ w = (SIZE : Int) ∧
      enqueue_w w SIZE fuel q v = some (q, v, false)) ∧
    (∃ q' : mcmp_bounded_queue T, enqueue_w w SIZE fuel (init SIZE) v = some (q', v, true)) := by
  have hS := static_assert_of_pow h2 hp
  obtain ⟨n, rfl⟩ : ∃ n, fuel = n + 1 := ⟨fuel - 1, by omega⟩
  have hM : ((SIZE : Nat) : Int) < (2 : Int) ^ w := by exact_mod_cast hlt
  refine ⟨?_, ?_, ?_⟩
  · intro q hq
    obtain ⟨q0, l, rfl, hR⟩ := reachable_w_rep hS hp hlt hq
    have hheld := wrapped_held hlt hR
    have hle := hR.2.2.1
    have hplain : (wrap w q0).m_read ≤ (wrap w q0).m_write →
        ((wrap w q0).m_write - (wrap w q0).m_read = l.length) := by
      intro hrw
      have hlt1 : (wrap w q0).m_write < 2 ^ w := Nat.mod_lt _ (by positivity)
      have hd : (((wrap w q0).m_write : Int) - ((wrap w q0).m_read : Int)) % (2 : Int) ^ w =
          ((wrap w q0).m_write : Int) - ((wrap w q0).m_read : Int) :=
        Int.emod_eq_of_lt (by omega) (by
          have : ((wrap w q0).m_write : Int) < (2 : Int) ^ w := by exact_mod_cast hlt1
          omega)
      rw [hd] at hheld
      omega
    by_cases hroom : l.length < SIZE
    · refine ⟨wrap w (pushed SIZE q0 v), true, enqueue_w_room hS hp hlt hR hroom n v, ?_, ?_⟩
      · rw [hheld]
        constructor
        · intro h; simp at h
        · intro h; omega
      · intro hrw
        have := hplain hrw
        constructor
        · intro h; simp at h
        · intro h; omega
    · refine ⟨wrap w q0, false, enqueue_w_full hS hp hlt hR (by omega) n v, ?_, ?_⟩
      · rw [hheld]
        constructor
        · intro _; omega
        · intro _; rfl
      · intro hrw
        have := hplain hrw
        constructor
        · intro _; omega
        · intro _; rfl
  · obtain ⟨q0, hrun, hR⟩ := run_refines hS n ((List.replicate SIZE v).map Call.enqueue)
      (init SIZE) [] (rep_init SIZE)
    rw [Fifo.run_enqueues SIZE (List.replicate SIZE v) [] (by simp)] at hrun hR
    simp only [List.nil_append] at hR
    have hfl : (List.replicate SIZE v).length = SIZE := by simp
    have hreach : Reachable_w w SIZE (wrap w q0) :=
      ⟨n + 1, (List.replicate SIZE v).map Call.enqueue,
        (List.replicate SIZE v).map (fun v => (true, v)), by
          rw [run_w_init hS hp hlt, hrun]; rfl⟩
    refine ⟨wrap w q0, hreach, ?_, enqueue_w_full hS hp hlt hR hfl n v⟩
    rw [wrapped_held hlt hR, hfl]
  · have hroom : ([] : List T).length < SIZE := by simp; omega
    have h := enqueue_w_room hS hp hlt (rep_init SIZE) hroom n v
    rw [wrap_init hlt] at h
    exact ⟨_, h⟩

/-- Witness of the amended C6 with 64-bit words at capacity 2: the queue filled by two accepted
values refuses the third. -/
theorem enqueue_result_w_witness :
    2 ≤ 2 ∧ (∃ k, 2 = 2 ^ k) ∧ 2 < 2 ^ 64 ∧ 0 < 1 ∧
    run_w 64 2 1 (init 2) [Call.enqueue "a", Call.enqueue "b"] =
      some ({ m_queue := [{ _data := "a", _index := 1 }, { _data := "b", _index := 2 }],
              m_read := 0, m_write := 2 }, [(true, "a"), (true, "b")]) ∧
    enqueue_w 64 2 1
        { m_queue := [{ _data := "a", _index := 1 }, { _data := "b", _index := 2 }],
          m_read := 0, m_write := 2 } "c" =
      some ({ m_queue := [{ _data := "a", _index := 1 }, { _data := "b", _index := 2 }],
              m_read := 0, m_write := 2 }, "c", false) ∧
    ((∀ q : mcmp_bounded_queue String, Reachable_w 64 2 q →
      ∃ q' b, enqueue_w 64 2 1 q "c" = some (q', "c", b) ∧
        (b = false ↔
          ((q.m_write : Int) - (q.m_read : Int)) % (2 : Int) ^ 64 = ((2 : Nat) : Int)) ∧
        (q.m_read ≤ q.m_write → (b = false ↔ q.m_write - q.m_read = 2))) ∧
    (∃ q : mcmp_bounded_queue String, Reachable_w 64 2 q ∧
      ((q.m_write : Int) - (q.m_read : Int)) % (2 : Int) ^ 64 = ((2 : Nat) : Int) ∧
      enqueue_w 64 2 1 q "c" = some (q, "c", false)) ∧
    (∃ q' : mcmp_bounded_queue String, enqueue_w 64 2 1 (init 2) "c" = some (q', "c", true))) :=
  ⟨by decide, ⟨1, rfl⟩, by norm_num, by decide, by decide, by decide,
    enqueue_result_w 64 2 (by decide) ⟨1, rfl⟩ (by norm_num) 1 (by decide) "c"⟩

end mcmp_bounded_queue

end zoltan


namespace zoltan

namespace mcmp_bounded_queue

variable {T : Type}

/-! ## Cell sequence numbers on `w`-bit words -/

/-- C12, the claim as stated fails.  With 64-bit words and capacity 2, after
`2 ^ 64 - 1` rounds and one more accepted value the read cursor is `2 ^ 64 - 1` and the
write cursor has wrapped to `0`; position `1` lies from the write cursor up to below the
read cursor plus 2, but cell `1 & 1` carries `0`, not `1`. -/
theorem cell_sequence_breaks_at_wrap :
    (∃ ss : List (Seen Nat),
      run_w 64 2 1 (init 2) (rounds (2 ^ 64 - 1) 0 0) = some (at_wrap, ss)) ∧
    enqueue_w 64 2 1 at_wrap 0 =
      some ({ m_queue := [{ _data := 0, _index := 0 }, { _data := 0, _index := 0 }],
              m_read := 2 ^ 64 - 1, m_write := 0 }, 0, true) ∧
    (0 : Nat) ≤ 1 ∧ 1 < 2 ^ 64 - 1 + 2 ∧
    ([{ _data := 0, _index := 0 }, { _data := 0, _index := 0 }] : List (cell Nat))[
        1 &&& SIZE_MASK 2]? = some { _data := 0, _index := 0 } ∧
    (0 : Nat) ≠ 1 := by
  obtain ⟨ss, h, _⟩ := reach_at_wrap
  exact ⟨⟨ss, h⟩, by decide, by decide, by decide, by decide, by decide⟩

/-- C12 as amended.  With counters held in `w`-bit words, every sequence of sequential
calls on a freshly constructed queue of valid capacity runs to a state in which, `R` being
the number of dequeue calls and `W` the number of enqueue calls that returned true, the
read cursor is `R mod 2 ^ w`, the write cursor is `W mod 2 ^ w`, the cell at index
`p & (SIZE - 1)` has sequence number `(p + 1) mod 2 ^ w` for every position `R <= p < W`
and `p mod 2 ^ w` for every position `W <= p < R + SIZE`, and the sequence number of
every cell `i` is congruent to `i` or to `i + 1` modulo `SIZE`.  (The calls return what
the reference FIFO returns.) -/
theorem cell_sequence_invariant_w [Inhabited T] (w SIZE : Nat) (h2 : 2 ≤ SIZE)
    (hp : ∃ k, SIZE = 2 ^ k) (hlt : SIZE < 2 ^ w) (fuel : Nat) (hf : 0 < fuel)
    (cs : List (Call T)) :
    ∃ q ss, run_w w SIZE fuel (init SIZE) cs = some (q, ss) ∧
      ss = (Fifo.run SIZE [] cs).2 ∧
      q.m_read = delivered cs ss % 2 ^ w ∧ q.m_write = accepted cs ss % 2 ^ w ∧
      (∀ p, delivered cs ss ≤ p → p < accepted cs ss →
        ∃ c, q.m_queue[p &&& SIZE_MASK SIZE]? = some c ∧ c._index = (p + 1) % 2 ^ w) ∧
      (∀ p, accepted cs ss ≤ p → p < delivered cs ss + SIZE →
        ∃ c, q.m_queue[p &&& SIZE_MASK SIZE]? = some c ∧ c._index = p % 2 ^ w) ∧
      (∀ i, i < SIZE → ∃ c, q.m_queue[i]? = some c ∧
        (c._index % SIZE = i % SIZE ∨ c._index % SIZE = (i + 1) % SIZE)) := by
  have hS := static_assert_of_pow h2 hp
  have hdvd := size_dvd_word hp hlt
  obtain ⟨n, rfl⟩ : ∃ n, fuel = n + 1 := ⟨fuel - 1, by omega⟩
  obtain ⟨q0, ss, l, hrun, hR, hw, hr⟩ := run_counts hS n cs (init SIZE) [] (rep_init SIZE)
  obtain ⟨q1, hrun1, _⟩ := run_refines hS n cs (init SIZE) [] (rep_init SIZE)
  have hss : ss = (Fifo.run SIZE [] cs).2 := by
    rw [hrun] at hrun1
    simp only [Option.some.injEq, Prod.mk.injEq] at hrun1
    exact hrun1.2
  have hw' : q0.m_write = accepted cs ss := by simpa [init] using hw
  have hr' : q0.m_read = delivered cs ss := by simpa [init] using hr
  refine ⟨wrap w q0, ss, ?_, hss, ?_, ?_, ?_, ?_, ?_⟩
  · rw [run_w_init hS hp hlt, hrun]; rfl
  · show q0.m_read % 2 ^ w = _
    rw [hr']
  · show q0.m_write % 2 ^ w = _
    rw [hw']
  · intro p h1 h3
    obtain ⟨c, hc, hci⟩ := rep_published hR p (by omega) (by omega)
    rw [mask_eq_mod hS]
    exact ⟨_, wrap_lookup w q0 _ c hc, by rw [hci]⟩
  · intro p h1 h3
    obtain ⟨c, hc, hci⟩ := rep_free hR p (by omega) (by omega)
    rw [mask_eq_mod hS]
    exact ⟨_, wrap_lookup w q0 _ c hc, by rw [hci]⟩
  · intro i hi
    obtain ⟨c, hc, hci⟩ := rep_cell_mod hR i hi
    refine ⟨_, wrap_lookup w q0 _ c hc, ?_⟩
    show c._index % 2 ^ w % SIZE = i % SIZE ∨ c._index % 2 ^ w % SIZE = (i + 1) % SIZE
    rw [Nat.mod_mod_of_dvd _ hdvd]
    exact hci

/-- Witness of the amended C12 with 64-bit words at capacity 2: one cell published, one
free. -/
theorem cell_sequence_invariant_w_witness :
    2 ≤ 2 ∧ (∃ k, 2 = 2 ^ k) ∧ 2 < 2 ^ 64 ∧ 0 < 1 ∧
    run_w 64 2 1 (init 2) [Call.enqueue "a", Call.enqueue "b", Call.dequeue "x"] =
      some ({ m_queue := [{ _data := "a", _index := 2 }, { _data := "b", _index := 2 }],
              m_read := 1, m_write := 2 }, [(true, "a"), (true, "b"), (true, "a")]) ∧
    ∃ q ss,
      run_w 64 2 1 (init 2) [Call.enqueue "a", Call.enqueue "b", Call.dequeue "x"] =
        some (q, ss) ∧
      ss = (Fifo.run 2 [] [Call.enqueue "a", Call.enqueue "b", Call.dequeue "x"]).2 ∧
      q.m_read =
        delivered [Call.enqueue "a", Call.enqueue "b", Call.dequeue "x"] ss % 2 ^ 64 ∧
      q.m_write =
        accepted [Call.enqueue "a", Call.enqueue "b", Call.dequeue "x"] ss % 2 ^ 64 ∧
      (∀ p, delivered [Call.enqueue "a", Call.enqueue "b", Call.dequeue "x"] ss ≤ p →
        p < accepted [Call.enqueue "a", Call.enqueue "b", Call.dequeue "x"] ss →
        ∃ c, q.m_queue[p &&& SIZE_MASK 2]? = some c ∧ c._index = (p + 1) % 2 ^ 64) ∧
      (∀ p, accepted [Call.enqueue "a", Call.enqueue "b", Call.dequeue "x"] ss ≤ p →
        p < delivered [Call.enqueue "a", Call.enqueue "b", Call.dequeue "x"] ss + 2 →
        ∃ c, q.m_queue[p &&& SIZE_MASK 2]? = some c ∧ c._index = p % 2 ^ 64) ∧
      (∀ i, i < 2 → ∃ c, q.m_queue[i]? = some c ∧
        (c._index % 2 = i % 2 ∨ c._index % 2 = (i + 1) % 2)) :=
  ⟨by decide, ⟨1, rfl⟩, by norm_num, by decide, by decide,
    cell_sequence_invariant_w 64 2 (by decide) ⟨1, rfl⟩ (by norm_num) 1 (by decide) _⟩

end mcmp_bounded_queue

end zoltan


namespace zoltan

namespace mcmp_bounded_queue

variable {T : Type}

/-- C13 as amended.  With counters held in `w`-bit words, in every state reached by
sequential calls from a freshly constructed queue of valid capacity in which `dequeue`
returns true with read cursor `r`, the consumed cell carries `(r + 1) mod 2 ^ w` before
the call and `(r + SIZE) mod 2 ^ w` after it: the call raises its sequence number by
`SIZE - 1` modulo `2 ^ w`, not by `SIZE`.  Such a state is reached: after one accepted
value `dequeue` returns true. -/
theorem consume_jump_w [Inhabited T] (w SIZE : Nat) (h2 : 2 ≤ SIZE)
    (hp : ∃ k, SIZE = 2 ^ k) (hlt : SIZE < 2 ^ w) (fuel : Nat) (hf : 0 < fuel) (out : T) :
    (∀ (q q' : mcmp_bounded_queue T) (d : T), Reachable_w w SIZE q →
      dequeue_w w SIZE fuel q out = some (q', d, true) →
      ∃ c c', q.m_queue[q.m_read &&& SIZE_MASK SIZE]? = some c ∧
        q'.m_queue[q.m_read &&& SIZE_MASK SIZE]? = some c' ∧
        c._index = (q.m_read + 1) % 2 ^ w ∧ c'._index = (q.m_read + SIZE) % 2 ^ w ∧
        c'._index = (c._index + (SIZE - 1)) % 2 ^ w ∧
        c'._index ≠ (c._index + SIZE) % 2 ^ w) ∧
    (∀ v : T, ∃ q q' : mcmp_bounded_queue T, Reachable_w w SIZE q ∧
      dequeue_w w SIZE fuel q out = some (q', v, true)) := by
  have hS := static_assert_of_pow h2 hp
  obtain ⟨n, rfl⟩ : ∃ n, fuel = n + 1 := ⟨fuel - 1, by omega⟩
  refine ⟨?_, ?_⟩
  · intro q q' d hq h
    obtain ⟨c, hc, hci⟩ := dequeue_w_before hS hp hlt hq (n + 1) out q' d h
    obtain ⟨c1, hc1, _, hc', _⟩ := dequeue_w_frame w SIZE (n + 1) q q' out d h
    have hjump : (q.m_read + SIZE) % 2 ^ w = (c._index + (SIZE - 1)) % 2 ^ w := by
      rw [hci, Nat.mod_add_mod]
      congr 1
      omega
    refine ⟨c, _, hc, hc', hci, rfl, hjump, ?_⟩
    show (q.m_read + SIZE) % 2 ^ w ≠ (c._index + SIZE) % 2 ^ w
    rw [hjump]
    intro heq
    have h1 : SIZE - 1 ≡ SIZE [MOD 2 ^ w] := Nat.ModEq.add_left_cancel' c._index heq
    have h3 : (SIZE - 1) % 2 ^ w = SIZE % 2 ^ w := h1
    rw [Nat.mod_eq_of_lt (by omega), Nat.mod_eq_of_lt hlt] at h3
    omega
  · intro v
    have hroom : ([] : List T).length < SIZE := by simp; omega
    have hR1 : Rep SIZE (pushed SIZE (init SIZE) v) [v] := by
      simpa using rep_pushed hS (rep_init SIZE) hroom v
    have henq := enqueue_w_room hS hp hlt (rep_init SIZE) hroom 0 v
    rw [wrap_init hlt] at henq
    refine ⟨wrap w (pushed SIZE (init SIZE) v), _,
      ⟨1, [Call.enqueue v], [(true, v)], by simp [run_w, call_w, henq]⟩,
      dequeue_w_some hS hp hlt hR1 n out⟩

/-- Witness of the amended C13 with 64-bit words at capacity 2: the cell goes from 1 to
2. -/
theorem consume_jump_w_witness :
    2 ≤ 2 ∧ (∃ k, 2 = 2 ^ k) ∧ 2 < 2 ^ 64 ∧ 0 < 1 ∧
    run_w 64 2 1 (init 2) [Call.enqueue "a"] =
      some ({ m_queue := [{ _data := "a", _index := 1 }, { _data := "", _index := 1 }],
              m_read := 0, m_write := 1 }, [(true, "a")]) ∧
    dequeue_w 64 2 1
        { m_queue := [{ _data := "a", _index := 1 }, { _data := "", _index := 1 }],
          m_read := 0, m_write := 1 } "x" =
      some ({ m_queue := [{ _data := "a", _index := 2 }, { _data := "", _index := 1 }],
              m_read := 1, m_write := 1 }, "a", true) ∧
    ((∀ (q q' : mcmp_bounded_queue String) (d : String), Reachable_w 64 2 q →
      dequeue_w 64 2 1 q "x" = some (q', d, true) →
      ∃ c c', q.m_queue[q.m_read &&& SIZE_MASK 2]? = some c ∧
        q'.m_queue[q.m_read &&& SIZE_MASK 2]? = some c' ∧
        c._index = (q.m_read + 1) % 2 ^ 64 ∧ c'._index = (q.m_read + 2) % 2 ^ 64 ∧
        c'._index = (c._index + (2 - 1)) % 2 ^ 64 ∧
        c'._index ≠ (c._index + 2) % 2 ^ 64) ∧
    (∀ v : String, ∃ q q' : mcmp_bounded_queue String, Reachable_w 64 2 q ∧
      dequeue_w 64 2 1 q "x" = some (q', v, true))) :=
  ⟨by decide, ⟨1, rfl⟩, by norm_num, by decide, by decide, by decide,
    consume_jump_w 64 2 (by decide) ⟨1, rfl⟩ (by norm_num) 1 (by decide) "x"⟩

/-- C15, the claim as stated fails.  With 64-bit words and capacity 2, after
`2 ^ 64 - 1` rounds the write cursor is `2 ^ 64 - 1`; the `enqueue` that follows returns
true, and afterwards the write cursor and the sequence number of the written cell (cell
`(2 ^ 64 - 1) & 1 = 1`) are `0`, not `2 ^ 64`. -/
theorem enqueue_wraps_cursor :
    (∃ ss : List (Seen Nat),
      run_w 64 2 1 (init 2) (rounds (2 ^ 64 - 1) 0 0) = some (at_wrap, ss)) ∧
    at_wrap.m_write = 2 ^ 64 - 1 ∧ at_wrap.m_write &&& SIZE_MASK 2 = 1 ∧
    enqueue_w 64 2 1 at_wrap 0 =
      some ({ m_queue := [{ _data := 0, _index := 0 }, { _data := 0, _index := 0 }],
              m_read := 2 ^ 64 - 1, m_write := 0 }, 0, true) ∧
    (0 : Nat) ≠ at_wrap.m_write + 1 := by
  obtain ⟨ss, h, _⟩ := reach_at_wrap
  exact ⟨⟨ss, h⟩, by decide, by decide, by decide, by decide⟩

/-- C15 as amended.  With counters held in `w`-bit words: when `enqueue(v)` returns true
from a state with write cursor `c`, afterwards the cell at index `c & (SIZE - 1)` holds
payload `v` and sequence number `(c + 1) mod 2 ^ w`, the write cursor is
`(c + 1) mod 2 ^ w`, and the read cursor, every other cell, the number of cells and the
caller's value `v` are unchanged; and `enqueue` does return true on the freshly
constructed queue of valid capacity. -/
theorem enqueue_effect_w [Inhabited T] (w SIZE : Nat) (h2 : 2 ≤ SIZE)
    (hp : ∃ k, SIZE = 2 ^ k) (hlt : SIZE < 2 ^ w) (fuel : Nat) (hf : 0 < fuel) (v : T) :
    (∀ (q q' : mcmp_bounded_queue T) (d : T),
      enqueue_w w SIZE fuel q v = some (q', d, true) →
      q'.m_queue[q.m_write &&& SIZE_MASK SIZE]? =
          some { _data := v, _index := (q.m_write + 1) % 2 ^ w } ∧
        q'.m_write = (q.m_write + 1) % 2 ^ w ∧ q'.m_read = q.m_read ∧
        (∀ j, j ≠ q.m_write &&& SIZE_MASK SIZE → q'.m_queue[j]? = q.m_queue[j]?) ∧
        q'.m_queue.length = q.m_queue.length ∧ d = v) ∧
    (∃ q' : mcmp_bounded_queue T, enqueue_w w SIZE fuel (init SIZE) v = some (q', v, true)) := by
  have hS := static_assert_of_pow h2 hp
  obtain ⟨n, rfl⟩ : ∃ n, fuel = n + 1 := ⟨fuel - 1, by omega⟩
  refine ⟨fun q q' d h => enqueue_w_frame w SIZE (n + 1) q q' v d h, ?_⟩
  have hroom : ([] : List T).length < SIZE := by simp; omega
  have h := enqueue_w_room hS hp hlt (rep_init SIZE) hroom n v
  rw [wrap_init hlt] at h
  exact ⟨_, h⟩

/-- Witness of the amended C15 with 64-bit words at capacity 4: `enqueue("test1")` on the
fresh queue, as in `main.cpp`. -/
theorem enqueue_effect_w_witness :
    2 ≤ 4 ∧ (∃ k, 4 = 2 ^ k) ∧ 4 < 2 ^ 64 ∧ 0 < 1 ∧
    enqueue_w 64 4 1 (init 4) "test1" =
      some ({ m_queue := [{ _data := "test1", _index := 1 }, { _data := "", _index := 1 },
                          { _data := "", _index := 2 }, { _data := "", _index := 3 }],
              m_read := 0, m_write := 1 }, "test1", true) ∧
    ((∀ (q q' : mcmp_bounded_queue String) (d : String),
      enqueue_w 64 4 1 q "test1" = some (q', d, true) →
      q'.m_queue[q.m_write &&& SIZE_MASK 4]? =
          some { _data := "test1", _index := (q.m_write + 1) % 2 ^ 64 } ∧
        q'.m_write = (q.m_write + 1) % 2 ^ 64 ∧ q'.m_read = q.m_read ∧
        (∀ j, j ≠ q.m_write &&& SIZE_MASK 4 → q'.m_queue[j]? = q.m_queue[j]?) ∧
        q'.m_queue.length = q.m_queue.length ∧ d = "test1") ∧
    (∃ q' : mcmp_bounded_queue String,
      enqueue_w 64 4 1 (init 4) "test1" = some (q', "test1", true))) :=
  ⟨by decide, ⟨2, rfl⟩, by norm_num, by decide, by decide,
    enqueue_effect_w 64 4 (by decide) ⟨2, rfl⟩ (by norm_num) 1 (by decide) "test1"⟩

/-- C16, the claim as stated fails.  With 64-bit words and capacity 2, after
`2 ^ 64 - 1` rounds and one more accepted value the read cursor is `2 ^ 64 - 1`; the
`dequeue` that follows returns true, and afterwards the read cursor is `0`, not `2 ^ 64`,
and the consumed cell (cell `(2 ^ 64 - 1) & 1 = 1`) carries `1`, not `2 ^ 64 + 1`. -/
theorem dequeue_wraps_cursor :
    (∃ ss : List (Seen Nat),
      run_w 64 2 1 (init 2) (rounds (2 ^ 64 - 1) 0 0) = some (at_wrap, ss)) ∧
    enqueue_w 64 2 1 at_wrap 0 =
      some ({ m_queue := [{ _data := 0, _index := 0 }, { _data := 0, _index := 0 }],
              m_read := 2 ^ 64 - 1, m_write := 0 }, 0, true) ∧
    (2 ^ 64 - 1) &&& SIZE_MASK 2 = 1 ∧
    dequeue_w 64 2 1
        { m_queue := [{ _data := 0, _index := 0 }, { _data := 0, _index := 0 }],
          m_read := 2 ^ 64 - 1, m_write := 0 } 7 =
      some ({ m_queue := [{ _data := 0, _index := 0 }, { _data := 0, _index := 1 }],
              m_read := 0, m_write := 0 }, 0, true) ∧
    (0 : Nat) ≠ 2 ^ 64 - 1 + 1 ∧ (1 : Nat) ≠ 2 ^ 64 - 1 + 2 := by
  obtain ⟨ss, h, _⟩ := reach_at_wrap
  exact ⟨⟨ss, h⟩, by decide, by decide, by decide, by decide, by decide⟩

/-- C16 as amended.  With counters held in `w`-bit words: when `dequeue(out)` returns true
from a state with read cursor `r`, afterwards `out` holds the payload that was stored in
the cell at index `r & (SIZE - 1)`, that cell keeps its payload and has sequence number
`(r + SIZE) mod 2 ^ w`, the read cursor is `(r + 1) mod 2 ^ w`, and the write cursor,
every other cell and the number of cells are unchanged; and `dequeue` does return true
after a value was accepted by the freshly constructed queue of valid capacity. -/
theorem dequeue_effect_w [Inhabited T] (w SIZE : Nat) (h2 : 2 ≤ SIZE)
    (hp : ∃ k, SIZE = 2 ^ k) (hlt : SIZE < 2 ^ w) (fuel : Nat) (hf : 0 < fuel) (out : T) :
    (∀ (q q' : mcmp_bounded_queue T) (d : T),
      dequeue_w w SIZE fuel q out = some (q', d, true) →
      ∃ c, q.m_queue[q.m_read &&& SIZE_MASK SIZE]? = some c ∧ d = c._data ∧
        q'.m_queue[q.m_read &&& SIZE_MASK SIZE]? =
          some { _data := c._data, _index := (q.m_read + SIZE) % 2 ^ w } ∧
        q'.m_read = (q.m_read + 1) % 2 ^ w ∧ q'.m_write = q.m_write ∧
        (∀ j, j ≠ q.m_read &&& SIZE_MASK SIZE → q'.m_queue[j]? = q.m_queue[j]?) ∧
        q'.m_queue.length = q.m_queue.length) ∧
    (∀ v : T, ∃ q1 q2 : mcmp_bounded_queue T,
      enqueue_w w SIZE fuel (init SIZE) v = some (q1, v, true) ∧
      dequeue_w w SIZE fuel q1 out = some (q2, v, true)) := by
  have hS := static_assert_of_pow h2 hp
  obtain ⟨n, rfl⟩ : ∃ n, fuel = n + 1 := ⟨fuel - 1, by omega⟩
  refine ⟨fun q q' d h => dequeue_w_frame w SIZE (n + 1) q q' out d h, ?_⟩
  intro v
  have hroom : ([] : List T).length < SIZE := by simp; omega
  have hR1 : Rep SIZE (pushed SIZE (init SIZE) v) [v] := by
    simpa using rep_pushed hS (rep_init SIZE) hroom v
  have henq := enqueue_w_room hS hp hlt (rep_init SIZE) hroom n v
  rw [wrap_init hlt] at henq
  exact ⟨_, _, henq, dequeue_w_some hS hp hlt hR1 n out⟩

/-- Witness of the amended C16 with 64-bit words at capacity 4: `dequeue` into a variable
holding `"nothing"` after `"test1"` was accepted, as in `main.cpp`. -/
theorem dequeue_effect_w_witness :
    2 ≤ 4 ∧ (∃ k, 4 = 2 ^ k) ∧ 4 < 2 ^ 64 ∧ 0 < 1 ∧
    dequeue_w 64 4 1
        { m_queue := [{ _data := "test1", _index := 1 }, { _data := "", _index := 1 },
                      { _data := "", _index := 2 }, { _data := "", _index := 3 }],
          m_read := 0, m_write := 1 } "nothing" =
      some ({ m_queue := [{ _data := "test1", _index := 4 }, { _data := "", _index := 1 },
                          { _data := "", _index := 2 }, { _data := "", _index := 3 }],
              m_read := 1, m_write := 1 }, "test1", true) ∧
    ((∀ (q q' : mcmp_bounded_queue String) (d : String),
      dequeue_w 64 4 1 q "nothing" = some (q', d, true) →
      ∃ c, q.m_queue[q.m_read &&& SIZE_MASK 4]? = some c ∧ d = c._data ∧
        q'.m_queue[q.m_read &&& SIZE_MASK 4]? =
          some { _data := c._data, _index := (q.m_read + 4) % 2 ^ 64 } ∧
        q'.m_read = (q.m_read + 1) % 2 ^ 64 ∧ q'.m_write = q.m_write ∧
        (∀ j, j ≠ q.m_read &&& SIZE_MASK 4 → q'.m_queue[j]? = q.m_queue[j]?) ∧
        q'.m_queue.length = q.m_queue.length) ∧
    (∀ v : String, ∃ q1 q2 : mcmp_bounded_queue String,
      enqueue_w 64 4 1 (init 4) v = some (q1, v, true) ∧
      dequeue_w 64 4 1 q1 "nothing" = some (q2, v, true))) :=
  ⟨by decide, ⟨2, rfl⟩, by norm_num, by decide, by decide,
    dequeue_effect_w 64 4 (by decide) ⟨2, rfl⟩ (by norm_num) 1 (by decide) "nothing"⟩

end mcmp_bounded_queue

end zoltan
